import Mathlib

/-!
# Verification of the text-segmentation core of `translate_chinese_classic_enhanced.py`

This file gives a shallow embedding of the segmentation pipeline of the
translation script: `count_tokens`, `break_large_paragraph`,
`force_substring_chunks`, `segment_chapter` and `split_text_into_chapters`.
Text is modelled as `List Char`.  Python string operations used by the code
(`str.strip`, `str.split` with and without a separator argument, `" ".join`,
and the two regular-expression splits) are embedded as executable Lean
functions with the same behaviour on the character sets the program uses.

`count_tokens` is embedded as its deterministic fallback branch
(character count): the `tiktoken` encoder is an external library, not part
of this repository, and the specification defines the estimator's fallback
as `cost = character_length(text)`.
-/

/-- Text is a list of characters. -/
abbrev Chars := List Char

/-- Python whitespace (`string.whitespace`): the characters stripped by
`str.strip()` and separating words for `str.split()`.  We model the ASCII
whitespace characters. -/
def isWS (c : Char) : Bool :=
  c == ' ' || c == '\t' || c == '\n' || c == '\r' || c == '\x0b' || c == '\x0c'

/-- Python `str.strip()`: drop leading and trailing whitespace. -/
def strip (s : Chars) : Chars :=
  ((s.dropWhile isWS).reverse.dropWhile isWS).reverse

/-- Auxiliary for `splitNN`: Python `str.split("\n\n")`, scanning left to
right for non-overlapping occurrences of the two-newline separator.
`acc` holds the current piece reversed. -/
def splitNNAux : Chars → Chars → List Chars
  | [], acc => [acc.reverse]
  | [c], acc => [(c :: acc).reverse]
  | c :: d :: rest, acc =>
      if c = '\n' ∧ d = '\n' then acc.reverse :: splitNNAux rest []
      else splitNNAux (d :: rest) (c :: acc)

/-- Python `chapter_text.split("\n\n")`. -/
def splitNN (s : Chars) : List Chars := splitNNAux s []

/-- Auxiliary for `pysplit`: Python `str.split()` with no argument
(split on runs of whitespace, discarding empty pieces). -/
def pysplitAux : Chars → Chars → List Chars
  | [], acc => if acc.isEmpty then [] else [acc.reverse]
  | c :: rest, acc =>
      if isWS c then
        (if acc.isEmpty then [] else [acc.reverse]) ++ pysplitAux rest []
      else pysplitAux rest (c :: acc)

/-- Python `text.split()`: whitespace-delimited words, no empty words. -/
def pysplit (s : Chars) : List Chars := pysplitAux s []

/-- Python `" ".join(pieces)`: the pieces joined by single spaces. -/
def joinSpace : List Chars → Chars
  | [] => []
  | [w] => w
  | w :: rest => w ++ ' ' :: joinSpace rest

/-- The sentence-ending characters of the regex `[。\.!?]` used in
`break_large_paragraph`. -/
def sentEnd (c : Char) : Bool :=
  c == '。' || c == '.' || c == '!' || c == '?'

theorem dropWhile_length_le (p : Char → Bool) (l : Chars) :
    (l.dropWhile p).length ≤ l.length := by
  induction l with
  | nil => simp [List.dropWhile]
  | cons c rest ih =>
    simp only [List.dropWhile]
    split
    · exact Nat.le_succ_of_le ih
    · exact Nat.le_refl _

/-- Auxiliary: Python `re.split(r'(?<=[。\.!?])\s*', paragraph)`.
The regex matches the zero-width position right after a sentence-ending
character and greedily consumes the following whitespace, so the split
pieces keep their final punctuation and the inter-sentence whitespace is
dropped.  `acc` holds the current piece reversed; `skip` records that the
scanner is consuming the `\s*` run right after a match. -/
def sentSplitAux (s acc : Chars) (skip : Bool) : List Chars :=
  match s with
  | [] => [acc.reverse]
  | c :: rest =>
      if skip ∧ isWS c then sentSplitAux rest acc true
      else if sentEnd c then (c :: acc).reverse :: sentSplitAux rest [] true
      else sentSplitAux rest (c :: acc) false

/-- `MAX_TOKENS = 6000` from the source. -/
def MAX_TOKENS : Nat := 6000

/-- `SUB_CHUNK_SIZE = 3000` from the source. -/
def SUB_CHUNK_SIZE : Nat := 3000

/-- `OVERLAP_TOKENS = 100` from the source. -/
def OVERLAP_TOKENS : Nat := 100

/-- `count_tokens`, embedded as its fallback branch: the character count
of the text (the `tiktoken` branch calls an external library that is not
part of this repository). -/
def count_tokens (s : Chars) : Nat := s.length

/-- Auxiliary for the overlap construction in `break_large_paragraph`:
walk the words of the previous chunk in reverse, accumulating whole words
while the cumulative length stays within `OVERLAP_TOKENS`; stop at the
first word that does not fit. -/
def overlapAux : List Chars → Nat → Chars → Chars
  | [], _, acc => acc
  | w :: ws, t, acc =>
      if t + w.length ≤ OVERLAP_TOKENS then
        overlapAux ws (t + w.length) (w ++ ' ' :: acc)
      else acc

/-- The overlap text built from the trailing words of `chunk`
(lines 105-114 of the source). -/
def overlapOf (chunk : Chars) : Chars := overlapAux (pysplit chunk).reverse 0 []

/-- One iteration of the sentence-accumulation loop of
`break_large_paragraph` (lines 97-118 of the source).  State:
(finished chunks, current chunk). -/
def blpStep (st : List Chars × Chars) (sentence : Chars) : List Chars × Chars :=
  let chunks := st.1
  let current := st.2
  let candidate := strip (current ++ (if current.isEmpty then [] else [' ']) ++ sentence)
  if count_tokens candidate > SUB_CHUNK_SIZE then
    let chunks2 := if current.isEmpty then chunks else chunks ++ [current]
    let candidate2 :=
      if OVERLAP_TOKENS > 0 ∧ ¬chunks2.isEmpty then
        strip (overlapOf (chunks2.getLastD []) ++ sentence)
      else candidate
    (chunks2, candidate2)
  else (chunks, candidate)

/-- `break_large_paragraph` (lines 81-125 of the source): split the
paragraph into sentences, then greedily group them into sub-chunks of at
most `SUB_CHUNK_SIZE` tokens with an overlap carried between chunks. -/
def break_large_paragraph (paragraph : Chars) : List Chars :=
  let sentences := ((sentSplitAux paragraph [] false).map strip).filter (fun s => ¬s.isEmpty)
  let st := sentences.foldl blpStep ([], [])
  if st.2.isEmpty then st.1 else st.1 ++ [st.2]

/-- One iteration of the word loop of `force_substring_chunks`
(lines 157-166 of the source).  State:
(results, current words, current token count). -/
def fscStep (maxSize : Nat) (st : List Chars × List Chars × Nat) (w : Chars) :
    List Chars × List Chars × Nat :=
  if st.2.2 + w.length > maxSize then
    (st.1 ++ [joinSpace st.2.1], [w], w.length)
  else
    (st.1, st.2.1 ++ [w], st.2.2 + w.length)

/-- `force_substring_chunks` (lines 145-174 of the source): forcibly chop
the text at whitespace-delimited word boundaries, accumulating words while
the running sum of word lengths stays within `max_size`. -/
def force_substring_chunks (text : Chars) (maxSize : Nat) : List Chars :=
  let st := (pysplit text).foldl (fscStep maxSize) ([], [], 0)
  if st.2.1.isEmpty then st.1 else st.1 ++ [joinSpace st.2.1]

/-- One iteration of the paragraph loop of `segment_chapter`
(lines 196-233 of the source).  State: (finished segments, accumulator). -/
def scStep (st : List Chars × Chars) (para : Chars) : List Chars × Chars :=
  let segments := st.1
  let current := st.2
  if count_tokens para > MAX_TOKENS then
    let segments2 := if current.isEmpty then segments else segments ++ [strip current]
    let segments3 := (break_large_paragraph para).foldl
      (fun acc sc =>
        if count_tokens sc ≤ MAX_TOKENS then acc ++ [sc]
        else acc ++ force_substring_chunks sc MAX_TOKENS) segments2
    (segments3, [])
  else
    let candidate := strip (current ++ para)
    if count_tokens candidate > MAX_TOKENS then
      ((if current.isEmpty then segments else segments ++ [strip current]),
        para ++ ['\n', '\n'])
    else (segments, current ++ ['\n', '\n'] ++ para)

/-- `segment_chapter` (lines 176-240 of the source): return the chapter
whole if it fits in `MAX_TOKENS`, otherwise accumulate blank-line-separated
paragraphs greedily, breaking oversized paragraphs by sentences and, as a
last resort, by forced word chunks. -/
def segment_chapter (chapter_text : Chars) : List Chars :=
  if count_tokens chapter_text ≤ MAX_TOKENS then [chapter_text]
  else
    let paragraphs := ((splitNN chapter_text).map strip).filter (fun p => ¬p.isEmpty)
    let st := paragraphs.foldl scStep ([], [])
    if st.2.isEmpty then st.1 else st.1 ++ [strip st.2]

/-- The character class `[一-龥]` of the chapter-heading regex. -/
def isCJK (c : Char) : Bool := 0x4e00 ≤ c.toNat && c.toNat ≤ 0x9fa5

/-- The character class `[一-龥\d]` of the chapter-heading regex
(CJK unified ideographs in the given range, or a decimal digit). -/
def isClass (c : Char) : Bool := isCJK c || c.isDigit

/-- Find the largest index `i ≥ 1` in the run with `run[i] = '回'`: the
greedy backtracking point of the regex `第[一-龥\d]+回` — the `+`
consumes as much as possible, then backtracks to the last `回` that leaves
at least one class character after `第`. -/
def lastHuiAux : Chars → Nat → Option Nat → Option Nat
  | [], _, best => best
  | c :: rest, i, best =>
      lastHuiAux rest (i + 1) (if c == '回' ∧ i ≥ 1 then some i else best)

/-- Try to match the regex `第[一-龥\d]+回` at the start of `s`.
Returns the matched text and the remainder of `s`, or `none`. -/
def tryMatch (s : Chars) : Option (Chars × Chars) :=
  match s with
  | [] => none
  | c :: rest =>
      if c = '第' then
        match lastHuiAux (rest.takeWhile isClass) 0 none with
        | some i => some ('第' :: (rest.takeWhile isClass).take (i + 1), rest.drop (i + 1))
        | none => none
      else none

theorem tryMatch_rest_lt {s : Chars} {m : Chars × Chars} (h : tryMatch s = some m) :
    m.2.length < s.length := by
  cases s with
  | nil => simp [tryMatch] at h
  | cons c rest =>
    simp only [tryMatch] at h
    split at h
    · split at h
      · rename_i i hi
        injection h with h2
        subst h2
        simp only [List.length_cons, List.length_drop]
        omega
      · simp at h
    · simp at h

/-- Python `re.compile(r'(第[一-龥\d]+回)').split(text)`: scan left
to right; at each match emit the preceding text and the captured match, and
continue after it.  `acc` holds the current non-match piece reversed. -/
def scanChapters (s acc : Chars) : List Chars :=
  match s with
  | [] => [acc.reverse]
  | c :: rest =>
      match h : tryMatch (c :: rest) with
      | some m => acc.reverse :: m.1 :: scanChapters m.2 []
      | none => scanChapters rest (c :: acc)
termination_by s.length
decreasing_by
  · exact tryMatch_rest_lt h
  · exact Nat.lt_succ_of_le (Nat.le_refl _)

/-- `split_text_into_chapters` (lines 127-143 of the source): take the
odd-indexed parts (the captured headings) of the regex split, append the
following part as content, strip, and keep the non-empty results. -/
def chapAux : List Chars → List Chars
  | _pre :: title :: rest =>
      (let ch := strip (title ++ rest.headD []);
        if ch.isEmpty then [] else [ch]) ++ chapAux rest
  | _ => []

/-- `split_text_into_chapters` (lines 127-143 of the source). -/
def split_text_into_chapters (text : Chars) : List Chars :=
  chapAux (scanChapters text [])

/-- Whether the text contains two consecutive newline characters, i.e. an
occurrence of the paragraph separator `"\n\n"`. -/
def hasNN : Chars → Bool
  | [] => false
  | [_] => false
  | c :: d :: rest => (c == '\n' && d == '\n') || hasNN (d :: rest)

/-- The non-whitespace characters of a text, in order: the content that
remains when separator and whitespace differences are ignored. -/
def nonWS (s : Chars) : Chars := s.filter (fun c => !isWS c)

/-- The sum of the token costs of the whitespace-delimited words of a
text: the quantity `force_substring_chunks` actually bounds. -/
def wordCosts (s : Chars) : Nat := ((pysplit s).map count_tokens).sum

/-- A text matches the chapter-heading regex `第[一-龥\d]+回` in full:
`第`, then one or more CJK-or-digit characters, then `回`. -/
def patMatch (w : Chars) : Prop :=
  ∃ mid, w = '第' :: mid ++ ['回'] ∧ mid ≠ [] ∧ ∀ c ∈ mid, isClass c = true

/-- Boolean (decidable) form of `patMatch`, for evaluating the
chapter-heading pattern on concrete texts. -/
def patMatchB (w : Chars) : Bool :=
  match w with
  | c :: rest =>
      c == '第' && rest.getLast? == some '回' && !rest.dropLast.isEmpty &&
        rest.dropLast.all isClass
  | [] => false

/-- Failing input for the accumulator bound of `segment_chapter`: two
paragraphs of 3000 characters each, separated by a blank line. -/
def accT : Chars :=
  List.replicate 3000 'a' ++ '\n' :: '\n' :: List.replicate 3000 'b'

/-- A 3000-character sentence ending in a CJK full stop. -/
def sentA : Chars := List.replicate 2999 'a' ++ ['。']

/-- A 9000-character whitespace-free paragraph of three 3000-character
sentences. -/
def punctP : Chars := sentA ++ sentA ++ sentA

/-! ## Basic facts about the embedded string primitives -/

theorem dropWhile_eq_self_of_head {p : Char → Bool} {l : Chars}
    (h : ∀ c, l.head? = some c → p c = false) : l.dropWhile p = l := by
  cases l with
  | nil => rfl
  | cons c rest =>
    rw [List.dropWhile_cons, if_neg]
    simp [h c rfl]

theorem strip_eq_self {s : Chars}
    (h1 : ∀ c, s.head? = some c → isWS c = false)
    (h2 : ∀ c, s.reverse.head? = some c → isWS c = false) : strip s = s := by
  unfold strip
  rw [dropWhile_eq_self_of_head h1, dropWhile_eq_self_of_head h2,
    List.reverse_reverse]

theorem strip_replicate {c : Char} (h : isWS c = false) (n : Nat) :
    strip (List.replicate n c) = List.replicate n c := by
  unfold strip
  rw [List.dropWhile_replicate, if_neg (by simp [h]), List.reverse_replicate,
    List.dropWhile_replicate, if_neg (by simp [h]), List.reverse_replicate]

theorem strip_cons_ws {c : Char} (h : isWS c = true) (s : Chars) :
    strip (c :: s) = strip s := by
  unfold strip
  rw [List.dropWhile_cons, if_pos h]

theorem dropWhile_all_append {p : Char → Bool} {a : Chars} (b : Chars)
    (h : ∀ x ∈ a, p x = true) : (a ++ b).dropWhile p = b.dropWhile p := by
  induction a with
  | nil => rfl
  | cons c rest ih =>
    rw [List.cons_append, List.dropWhile_cons, if_pos (h c (by simp))]
    exact ih (fun x hx => h x (by simp [hx]))

theorem dropWhile_all_nil {p : Char → Bool} {t : Chars}
    (h : ∀ x ∈ t, p x = true) : t.dropWhile p = [] := by
  induction t with
  | nil => rfl
  | cons c rest ih =>
    rw [List.dropWhile_cons, if_pos (h c (by simp))]
    exact ih (fun x hx => h x (by simp [hx]))

theorem strip_append_ws {s t : Chars} (h : ∀ x ∈ t, isWS x = true) :
    strip (s ++ t) = strip s := by
  unfold strip
  by_cases hs : (s.dropWhile isWS).isEmpty
  · rw [List.dropWhile_append, if_pos hs, dropWhile_all_nil h]
    rw [List.isEmpty_iff] at hs
    rw [hs]
  · rw [List.dropWhile_append, if_neg hs, List.reverse_append,
      dropWhile_all_append _ (fun x hx => h x (List.mem_reverse.mp hx))]

/-! ## Step lemmas for the scanning functions -/

theorem replicate_append_cons (c : Char) (m : Nat) (acc : Chars) :
    List.replicate m c ++ c :: acc = c :: (List.replicate m c ++ acc) := by
  induction m with
  | zero => rfl
  | succ k ih => simp [List.replicate_succ, ih]

theorem splitNNAux_nil (acc : Chars) : splitNNAux [] acc = [acc.reverse] := rfl

theorem splitNNAux_cons_other {c : Char} {s : Chars} (acc : Chars)
    (h : ¬(c = '\n' ∧ s.head? = some '\n')) :
    splitNNAux (c :: s) acc = splitNNAux s (c :: acc) := by
  cases s with
  | nil => rfl
  | cons d rest =>
    show splitNNAux (c :: d :: rest) acc = splitNNAux (d :: rest) (c :: acc)
    rw [splitNNAux, if_neg (by simpa using h)]

theorem splitNNAux_nn (s acc : Chars) :
    splitNNAux ('\n' :: '\n' :: s) acc = acc.reverse :: splitNNAux s [] := by
  rw [splitNNAux, if_pos ⟨rfl, rfl⟩]

theorem splitNNAux_replicate {c : Char} (h : c ≠ '\n') (n : Nat)
    (l acc : Chars) :
    splitNNAux (List.replicate n c ++ l) acc
      = splitNNAux l (List.replicate n c ++ acc) := by
  induction n generalizing acc with
  | zero => simp
  | succ m ih =>
    rw [List.replicate_succ, List.cons_append,
      splitNNAux_cons_other acc (by simp [h]), ih, replicate_append_cons]
    rw [List.cons_append]

theorem pysplitAux_nil (acc : Chars) :
    pysplitAux [] acc = if acc.isEmpty then [] else [acc.reverse] := rfl

theorem pysplitAux_cons_ws {c : Char} {s : Chars} (acc : Chars)
    (h : isWS c = true) :
    pysplitAux (c :: s) acc
      = (if acc.isEmpty then [] else [acc.reverse]) ++ pysplitAux s [] := by
  rw [pysplitAux, if_pos h]

theorem pysplitAux_cons_notws {c : Char} {s : Chars} (acc : Chars)
    (h : isWS c = false) :
    pysplitAux (c :: s) acc = pysplitAux s (c :: acc) := by
  rw [pysplitAux, if_neg (by simp [h])]

theorem pysplitAux_replicate {c : Char} (h : isWS c = false) (n : Nat)
    (l acc : Chars) :
    pysplitAux (List.replicate n c ++ l) acc
      = pysplitAux l (List.replicate n c ++ acc) := by
  induction n generalizing acc with
  | zero => simp
  | succ m ih =>
    rw [List.replicate_succ, List.cons_append, pysplitAux_cons_notws acc h,
      ih, replicate_append_cons]
    rw [List.cons_append]

theorem sentEnd_not_ws {c : Char} (h : sentEnd c = true) : isWS c = false := by
  unfold sentEnd at h
  rcases Bool.or_eq_true_iff.mp h with h1 | h2
  · rcases Bool.or_eq_true_iff.mp h1 with h3 | h4
    · rcases Bool.or_eq_true_iff.mp h3 with h5 | h6
      · rw [show c = '。' from by simpa using h5]
        decide
      · rw [show c = '.' from by simpa using h6]
        decide
    · rw [show c = '!' from by simpa using h4]
      decide
  · rw [show c = '?' from by simpa using h2]
    decide

theorem sentSplitAux_nil (acc : Chars) (skip : Bool) :
    sentSplitAux [] acc skip = [acc.reverse] := rfl

theorem sentSplitAux_cons_end {c : Char} {s : Chars} (acc : Chars)
    (skip : Bool) (h : sentEnd c = true) :
    sentSplitAux (c :: s) acc skip
      = (c :: acc).reverse :: sentSplitAux s [] true := by
  rw [sentSplitAux, if_neg (by simp [sentEnd_not_ws h]), if_pos h]

theorem sentSplitAux_cons_mid {c : Char} {s : Chars} (acc : Chars)
    (skip : Bool) (h : sentEnd c = false) (hw : isWS c = false) :
    sentSplitAux (c :: s) acc skip = sentSplitAux s (c :: acc) false := by
  rw [sentSplitAux, if_neg (by simp [hw]), if_neg (by simp [h])]

theorem sentSplitAux_cons_mid_noskip {c : Char} {s : Chars} (acc : Chars)
    (h : sentEnd c = false) :
    sentSplitAux (c :: s) acc false = sentSplitAux s (c :: acc) false := by
  rw [sentSplitAux, if_neg (by simp), if_neg (by simp [h])]

theorem sentSplitAux_cons_skip {c : Char} {s : Chars} (acc : Chars)
    (h : isWS c = true) :
    sentSplitAux (c :: s) acc true = sentSplitAux s acc true := by
  rw [sentSplitAux, if_pos (by simp [h])]

theorem sentSplitAux_replicate {c : Char} (h : sentEnd c = false)
    (hw : isWS c = false) (n : Nat) (l acc : Chars) (skip : Bool) :
    sentSplitAux (List.replicate n c ++ l) acc skip
      = sentSplitAux l (List.replicate n c ++ acc) (skip && n == 0) := by
  induction n generalizing acc skip with
  | zero => simp
  | succ m ih =>
    rw [List.replicate_succ, List.cons_append,
      sentSplitAux_cons_mid acc skip h hw, ih, replicate_append_cons]
    cases hm : m == 0 <;> simp [hm]

/-! ## Generic fold invariants and word lemmas -/

theorem foldl_inv {β : Type} {γ : Type} (f : β → γ → β) (P : β → Prop)
    (Q : γ → Prop) (l : List γ) (init : β) (h0 : P init)
    (hstep : ∀ st x, P st → Q x → P (f st x)) (hall : ∀ x ∈ l, Q x) :
    P (l.foldl f init) := by
  induction l generalizing init with
  | nil => exact h0
  | cons x rest ih =>
    rw [List.foldl_cons]
    exact ih (f init x) (hstep init x h0 (hall x (by simp)))
      (fun y hy => hall y (by simp [hy]))

theorem pysplitAux_words {s : Chars} :
    ∀ acc : Chars, (∀ c ∈ acc, isWS c = false) →
      ∀ w ∈ pysplitAux s acc, w ≠ [] ∧ ∀ c ∈ w, isWS c = false := by
  induction s with
  | nil =>
    intro acc hacc w hw
    rw [pysplitAux_nil] at hw
    by_cases ha : acc.isEmpty
    · rw [if_pos ha] at hw
      simp at hw
    · rw [if_neg ha] at hw
      simp only [List.mem_singleton] at hw
      subst hw
      refine ⟨by simpa [List.isEmpty_iff] using ha, ?_⟩
      intro c hc
      exact hacc c (List.mem_reverse.mp hc)
  | cons c rest ih =>
    intro acc hacc w hw
    by_cases hc : isWS c
    · rw [pysplitAux_cons_ws acc hc] at hw
      rcases List.mem_append.mp hw with h1 | h2
      · by_cases ha : acc.isEmpty
        · rw [if_pos ha] at h1
          simp at h1
        · rw [if_neg ha] at h1
          simp only [List.mem_singleton] at h1
          subst h1
          refine ⟨by simpa [List.isEmpty_iff] using ha, ?_⟩
          intro d hd
          exact hacc d (List.mem_reverse.mp hd)
      · exact ih [] (by simp) w h2
    · rw [pysplitAux_cons_notws acc (by simpa using hc)] at hw
      refine ih (c :: acc) ?_ w hw
      intro d hd
      rcases List.mem_cons.mp hd with h1 | h2
      · subst h1
        simpa using hc
      · exact hacc d h2

theorem pysplit_words {s : Chars} {w : Chars} (hw : w ∈ pysplit s) :
    w ≠ [] ∧ ∀ c ∈ w, isWS c = false :=
  pysplitAux_words [] (by simp) w hw

theorem pysplitAux_word {w : Chars} (h : ∀ c ∈ w, isWS c = false)
    (l acc : Chars) :
    pysplitAux (w ++ l) acc = pysplitAux l (w.reverse ++ acc) := by
  induction w generalizing acc with
  | nil => simp
  | cons c rest ih =>
    rw [List.cons_append, pysplitAux_cons_notws acc (h c (by simp))]
    rw [ih (fun d hd => h d (by simp [hd]))]
    simp

theorem pysplit_word_eq {w : Chars} (hne : w ≠ [])
    (h : ∀ c ∈ w, isWS c = false) : pysplit w = [w] := by
  unfold pysplit
  have := pysplitAux_word h [] []
  rw [List.append_nil] at this
  rw [this, pysplitAux_nil, if_neg (by simpa [List.isEmpty_iff] using hne)]
  simp

theorem pysplit_joinSpace {g : List Chars}
    (h : ∀ w ∈ g, w ≠ [] ∧ ∀ c ∈ w, isWS c = false) :
    pysplit (joinSpace g) = g := by
  induction g with
  | nil => rfl
  | cons w rest ih =>
    cases rest with
    | nil =>
      have hw := h w (by simp)
      exact pysplit_word_eq hw.1 hw.2
    | cons v rest2 =>
      have hw := h w (by simp)
      show pysplit (w ++ ' ' :: joinSpace (v :: rest2)) = w :: v :: rest2
      unfold pysplit
      rw [pysplitAux_word hw.2, List.append_nil,
        pysplitAux_cons_ws _ (by decide),
        if_neg (by simpa [List.isEmpty_iff] using hw.1)]
      have ihr : pysplitAux (joinSpace (v :: rest2)) [] = v :: rest2 :=
        ih (fun x hx => h x (by simp [List.mem_cons.mp hx]))
      rw [ihr]
      simp

/-! ## Claim C3: segmentation of the empty chapter -/

/-- Claim C3 (counterexample): `segment_chapter` applied to the empty
chapter text does NOT return zero segments — the empty text satisfies the
`count_tokens <= MAX_TOKENS` shortcut, so the code returns the one-element
list containing the empty text. -/
theorem C3_counterexample : segment_chapter [] ≠ [] := by decide

/-- Claim C3 (amended): `segment_chapter` applied to the empty chapter
text returns exactly one segment, the empty text itself. -/
theorem C3_amended : segment_chapter [] = [[]] := by decide

/-! ## Claim C6: chapters within the budget pass through unchanged -/

/-- Claim C6: for every chapter text whose token cost is at most
`MAX_TOKENS`, `segment_chapter` returns exactly one segment, equal to the
input text. -/
theorem C6_thm (T : Chars) (h : count_tokens T ≤ MAX_TOKENS) :
    segment_chapter T = [T] := by
  unfold segment_chapter
  rw [if_pos h]

/-- Witness for C6 at the concrete input `"ab"`. -/
theorem C6_witness :
    count_tokens ['a', 'b'] ≤ MAX_TOKENS ∧ segment_chapter ['a', 'b'] = [['a', 'b']] :=
  ⟨by decide, C6_thm ['a', 'b'] (by decide)⟩

/-! ## Claim C8: sub-chunks of break_large_paragraph are non-empty -/

theorem blpStep_fst (st : List Chars × Chars) (s : Chars) :
    (blpStep st s).1 = st.1 ∨ ((blpStep st s).1 = st.1 ++ [st.2] ∧ st.2 ≠ []) := by
  simp only [blpStep]
  split
  · split
    · left
      rfl
    · left
      rfl
  · rename_i hcur
    split
    · right
      exact ⟨rfl, by simpa [List.isEmpty_iff] using hcur⟩
    · left
      rfl

theorem blpStep_chunks_inv (st : List Chars × Chars) (s : Chars)
    (hP : ∀ x ∈ st.1, x ≠ []) : ∀ x ∈ (blpStep st s).1, x ≠ [] := by
  intro x hx
  rcases blpStep_fst st s with h | ⟨h, hne⟩
  · rw [h] at hx
    exact hP x hx
  · rw [h] at hx
    rcases List.mem_append.mp hx with h1 | h2
    · exact hP x h1
    · simp only [List.mem_singleton] at h2
      subst h2
      exact hne

theorem blp_chunks_ne_nil (sents : List Chars) :
    ∀ c ∈ (if (sents.foldl blpStep ([], [])).2.isEmpty
            then (sents.foldl blpStep ([], [])).1
            else (sents.foldl blpStep ([], [])).1 ++ [(sents.foldl blpStep ([], [])).2]),
      c ≠ [] := by
  intro c hc
  have hinv : ∀ x ∈ (sents.foldl blpStep ([], [])).1, x ≠ [] :=
    foldl_inv blpStep (fun st => ∀ x ∈ st.1, x ≠ []) (fun _ => True) sents ([], [])
      (by simp) (fun st x hP _ => blpStep_chunks_inv st x hP) (fun _ _ => trivial)
  by_cases hcur : (sents.foldl blpStep ([], [])).2.isEmpty
  · rw [if_pos hcur] at hc
    exact hinv c hc
  · rw [if_neg hcur] at hc
    rcases List.mem_append.mp hc with h1 | h2
    · exact hinv c h1
    · simp only [List.mem_singleton] at h2
      subst h2
      simpa [List.isEmpty_iff] using hcur

/-- Claim C8: every sub-chunk returned by `break_large_paragraph` is a
non-empty string: every append into the chunk list is guarded by a
non-emptiness test on the accumulator. -/
theorem C8_thm (paragraph : Chars) (c : Chars)
    (h : c ∈ break_large_paragraph paragraph) : c ≠ [] :=
  blp_chunks_ne_nil
    (((sentSplitAux paragraph [] false).map strip).filter (fun s => ¬s.isEmpty)) c h

/-- Witness for C8 at the concrete paragraph `"a. b"`. -/
theorem C8_witness :
    ['a', '.', ' ', 'b'] ∈ break_large_paragraph ['a', '.', ' ', 'b'] ∧
      ['a', '.', ' ', 'b'] ≠ [] :=
  ⟨by decide, C8_thm ['a', '.', ' ', 'b'] ['a', '.', ' ', 'b'] (by decide)⟩

/-! ## Claim C4: the bound of force_substring_chunks -/

/-- Claim C4 (counterexample): at `text = "aa aa"` and `N = 4`, the single
piece returned is `"aa aa"`, whose token cost 5 exceeds 4, although it is
made of two words each of cost at most 4: the code bounds the running sum
of word lengths, not the cost of the space-joined piece. -/
theorem C4_counterexample :
    force_substring_chunks ['a', 'a', ' ', 'a', 'a'] 4 = [['a', 'a', ' ', 'a', 'a']] ∧
      count_tokens ['a', 'a', ' ', 'a', 'a'] > 4 ∧
      (pysplit ['a', 'a', ' ', 'a', 'a']).length = 2 ∧
      ∀ w ∈ pysplit ['a', 'a', ' ', 'a', 'a'], count_tokens w ≤ 4 := by
  refine ⟨by decide, by decide, by decide, by decide⟩

theorem flush_piece {N : Nat} {cur : List Chars}
    (hwords : ∀ w ∈ cur, w ≠ [] ∧ ∀ c ∈ w, isWS c = false)
    (hsum : (cur.map count_tokens).sum ≤ N ∨
      ∃ w, cur = [w] ∧ count_tokens w > N) :
    wordCosts (joinSpace cur) ≤ N ∨
      ∃ w, pysplit (joinSpace cur) = [w] ∧ count_tokens w > N := by
  rcases hsum with hs | ⟨w, hcur, hw⟩
  · left
    unfold wordCosts
    rw [pysplit_joinSpace hwords]
    exact hs
  · right
    refine ⟨w, ?_, hw⟩
    subst hcur
    have hww := hwords w (by simp)
    show pysplit w = [w]
    exact pysplit_word_eq hww.1 hww.2

theorem fscStep_inv (N : Nat) (st : List Chars × List Chars × Nat) (x : Chars)
    (hP : (∀ q ∈ st.1, wordCosts q ≤ N ∨ ∃ w, pysplit q = [w] ∧ count_tokens w > N)
      ∧ (∀ w ∈ st.2.1, w ≠ [] ∧ ∀ c ∈ w, isWS c = false)
      ∧ st.2.2 = (st.2.1.map count_tokens).sum
      ∧ ((st.2.1.map count_tokens).sum ≤ N ∨ ∃ w, st.2.1 = [w] ∧ count_tokens w > N))
    (hQ : x ≠ [] ∧ ∀ c ∈ x, isWS c = false) :
    (∀ q ∈ (fscStep N st x).1,
        wordCosts q ≤ N ∨ ∃ w, pysplit q = [w] ∧ count_tokens w > N)
      ∧ (∀ w ∈ (fscStep N st x).2.1, w ≠ [] ∧ ∀ c ∈ w, isWS c = false)
      ∧ (fscStep N st x).2.2 = ((fscStep N st x).2.1.map count_tokens).sum
      ∧ (((fscStep N st x).2.1.map count_tokens).sum ≤ N ∨
          ∃ w, (fscStep N st x).2.1 = [w] ∧ count_tokens w > N) := by
  obtain ⟨hres, hwords, htok, hsum⟩ := hP
  unfold fscStep
  split
  · refine ⟨?_, ?_, by simp [count_tokens], ?_⟩
    · intro q hq
      rcases List.mem_append.mp hq with h1 | h2
      · exact hres q h1
      · simp only [List.mem_singleton] at h2
        subst h2
        exact flush_piece hwords hsum
    · intro w hw
      simp only [List.mem_singleton] at hw
      subst hw
      exact hQ
    · by_cases hx : count_tokens x ≤ N
      · left
        simpa [count_tokens] using hx
      · right
        exact ⟨x, rfl, by omega⟩
  · rename_i hc
    refine ⟨hres, ?_, ?_, ?_⟩
    · intro w hw
      rcases List.mem_append.mp hw with h1 | h2
      · exact hwords w h1
      · simp only [List.mem_singleton] at h2
        subst h2
        exact hQ
    · simp [htok, count_tokens]
    · left
      simp only [List.map_append, List.sum_append, List.map_cons,
        List.map_nil, List.sum_cons, List.sum_nil]
      have : st.2.2 + x.length ≤ N := by omega
      simp only [count_tokens]
      omega

theorem fsc_pieces (ws : List Chars) (N : Nat)
    (hws : ∀ w ∈ ws, w ≠ [] ∧ ∀ c ∈ w, isWS c = false) :
    ∀ p ∈ (if (ws.foldl (fscStep N) ([], [], 0)).2.1.isEmpty
            then (ws.foldl (fscStep N) ([], [], 0)).1
            else (ws.foldl (fscStep N) ([], [], 0)).1
              ++ [joinSpace (ws.foldl (fscStep N) ([], [], 0)).2.1]),
      wordCosts p ≤ N ∨ ∃ w, pysplit p = [w] ∧ count_tokens w > N := by
  intro p hp
  have hinv := foldl_inv (fscStep N)
    (fun st =>
      (∀ q ∈ st.1, wordCosts q ≤ N ∨ ∃ w, pysplit q = [w] ∧ count_tokens w > N)
      ∧ (∀ w ∈ st.2.1, w ≠ [] ∧ ∀ c ∈ w, isWS c = false)
      ∧ st.2.2 = (st.2.1.map count_tokens).sum
      ∧ ((st.2.1.map count_tokens).sum ≤ N ∨ ∃ w, st.2.1 = [w] ∧ count_tokens w > N))
    (fun x => x ≠ [] ∧ ∀ c ∈ x, isWS c = false) ws ([], [], 0)
    (by simp) (fscStep_inv N) hws
  obtain ⟨hres, hwords, _, hsum⟩ := hinv
  split at hp
  · exact hres p hp
  · rcases List.mem_append.mp hp with h1 | h2
    · exact hres p h1
    · simp only [List.mem_singleton] at h2
      subst h2
      exact flush_piece hwords hsum

/-- Claim C4 (amended): every piece returned by `force_substring_chunks`
has the sum of its words' token costs at most `N` — its full token cost can
exceed `N` only by the number of separating spaces re-inserted by the join —
unless the piece is a single whitespace-delimited word whose cost alone
exceeds `N`, in which case that word is emitted alone. -/
theorem C4_amended (text : Chars) (N : Nat) (p : Chars)
    (h : p ∈ force_substring_chunks text N) :
    wordCosts p ≤ N ∨ ∃ w, pysplit p = [w] ∧ count_tokens w > N :=
  fsc_pieces (pysplit text) N (fun _ hw => pysplit_words hw) p h

/-- Witness for C4 (amended) at `text = "aa aa"`, `N = 4`. -/
theorem C4_witness :
    ['a', 'a', ' ', 'a', 'a'] ∈ force_substring_chunks ['a', 'a', ' ', 'a', 'a'] 4 ∧
      (wordCosts ['a', 'a', ' ', 'a', 'a'] ≤ 4 ∨
        ∃ w, pysplit ['a', 'a', ' ', 'a', 'a'] = [w] ∧ count_tokens w > 4) :=
  ⟨by decide, C4_amended ['a', 'a', ' ', 'a', 'a'] 4 ['a', 'a', ' ', 'a', 'a'] (by decide)⟩

/-! ## Fixed points of strip -/

theorem strip_length_le (s : Chars) : (strip s).length ≤ s.length := by
  unfold strip
  rw [List.length_reverse]
  have h1 := dropWhile_length_le isWS (s.dropWhile isWS).reverse
  rw [List.length_reverse] at h1
  have h2 := dropWhile_length_le isWS s
  omega

theorem strip_fixed_head {s : Chars} (h : strip s = s) :
    ∀ c, s.head? = some c → isWS c = false := by
  intro c hc
  by_contra hws
  have hws2 : isWS c = true := by simpa using hws
  obtain ⟨t, rfl⟩ : ∃ t, s = c :: t := by
    cases s with
    | nil => simp at hc
    | cons d t =>
      simp only [List.head?_cons, Option.some.injEq] at hc
      exact ⟨t, by rw [hc]⟩
  rw [strip_cons_ws hws2] at h
  have := strip_length_le t
  rw [h] at this
  simp at this

theorem strip_fixed_last {s : Chars} (h : strip s = s) :
    ∀ c, s.getLast? = some c → isWS c = false := by
  intro c hc
  by_contra hws
  have hws2 : isWS c = true := by simpa using hws
  obtain ⟨t, rfl⟩ : ∃ t, s = t ++ [c] := by
    cases hs : s.reverse with
    | nil =>
      rw [← List.head?_reverse, hs] at hc
      simp at hc
    | cons d t2 =>
      rw [← List.head?_reverse, hs] at hc
      simp only [List.head?_cons, Option.some.injEq] at hc
      subst hc
      refine ⟨t2.reverse, ?_⟩
      have := congrArg List.reverse hs
      rw [List.reverse_reverse] at this
      rw [this, List.reverse_cons]
  rw [strip_append_ws (by simp [hws2])] at h
  have := strip_length_le t
  rw [h] at this
  simp at this

theorem strip_fix_append {a b : Chars} (ha : strip a = a) (hb : strip b = b)
    (hane : a ≠ []) (hbne : b ≠ []) : strip (a ++ b) = a ++ b := by
  refine strip_eq_self ?_ ?_
  · intro c hc
    rw [List.head?_append] at hc
    cases hha : a.head? with
    | none => simp [List.head?_eq_none_iff.mp hha] at hane
    | some d =>
      rw [hha] at hc
      simp only [Option.or_some, Option.some.injEq] at hc
      subst hc
      exact strip_fixed_head ha d hha
  · intro c hc
    rw [List.head?_reverse, List.getLast?_append] at hc
    cases hhb : b.getLast? with
    | none => exact absurd (List.getLast?_eq_none_iff.mp hhb) hbne
    | some d =>
      rw [hhb] at hc
      have hc2 : (some d : Option Char) = some c := hc
      injection hc2 with hdc
      subst hdc
      exact strip_fixed_last hb d hhb

/-! ## Splitting on the paragraph separator around clean paragraphs -/

theorem hasNN_cons_false {c d : Char} {rest : Chars}
    (h : hasNN (c :: d :: rest) = false) :
    ¬(c = '\n' ∧ d = '\n') ∧ hasNN (d :: rest) = false := by
  unfold hasNN at h
  rcases Bool.or_eq_false_iff.mp h with ⟨h1, h2⟩
  refine ⟨?_, h2⟩
  rintro ⟨rfl, rfl⟩
  simp at h1

theorem splitNNAux_no_nn {a : Chars} (ha : hasNN a = false)
    (hlast : a.getLast? ≠ some '\n') (b acc : Chars) :
    splitNNAux (a ++ '\n' :: '\n' :: b) acc
      = (acc.reverse ++ a) :: splitNNAux b [] := by
  induction a generalizing acc with
  | nil =>
    rw [List.nil_append, splitNNAux_nn]
    simp
  | cons c a' ih =>
    cases a' with
    | nil =>
      have hc : ¬(c = '\n') := by
        intro heq
        exact hlast (by rw [heq]; rfl)
      rw [List.cons_append, List.nil_append,
        splitNNAux_cons_other acc (by simp [hc]), splitNNAux_nn]
      simp
    | cons d a'' =>
      obtain ⟨hnn, ha'⟩ := hasNN_cons_false ha
      have hlast' : (d :: a'').getLast? ≠ some '\n' := by
        rw [List.getLast?_cons_cons] at hlast
        exact hlast
      rw [List.cons_append,
        splitNNAux_cons_other acc (by
          simp only [List.cons_append, List.head?_cons]
          rintro ⟨hcn, hdn⟩
          exact hnn ⟨hcn, by injection hdn⟩),
        ih ha' hlast' (c :: acc)]
      simp

/-! ## Reduction lemmas for the paragraph loop of segment_chapter -/

theorem scStep_fits {st : List Chars × Chars} {para : Chars}
    (hpara : ¬count_tokens para > MAX_TOKENS)
    (hcand : ¬count_tokens (strip (st.2 ++ para)) > MAX_TOKENS) :
    scStep st para = (st.1, st.2 ++ '\n' :: '\n' :: para) := by
  simp only [scStep]
  rw [if_neg hpara, if_neg hcand]
  simp

theorem scStep_flush {st : List Chars × Chars} {para : Chars}
    (hpara : ¬count_tokens para > MAX_TOKENS)
    (hcand : count_tokens (strip (st.2 ++ para)) > MAX_TOKENS) :
    scStep st para
      = ((if st.2.isEmpty then st.1 else st.1 ++ [strip st.2]),
          para ++ ['\n', '\n']) := by
  simp only [scStep]
  rw [if_neg hpara, if_pos hcand]

theorem scStep_big {st : List Chars × Chars} {para : Chars}
    (hpara : count_tokens para > MAX_TOKENS) :
    scStep st para
      = ((break_large_paragraph para).foldl
          (fun acc sc =>
            if count_tokens sc ≤ MAX_TOKENS then acc ++ [sc]
            else acc ++ force_substring_chunks sc MAX_TOKENS)
          (if st.2.isEmpty then st.1 else st.1 ++ [strip st.2]), []) := by
  simp only [scStep]
  rw [if_pos hpara]

theorem head?_append_left {a : Chars} (b : Chars) (ha : a ≠ []) :
    (a ++ b).head? = a.head? := by
  rw [List.head?_append]
  cases hha : a.head? with
  | none => exact absurd (List.head?_eq_none_iff.mp hha) ha
  | some d => rfl

theorem getLast?_append_right (a : Chars) {b : Chars} (hb : b ≠ []) :
    (a ++ b).getLast? = b.getLast? := by
  rw [List.getLast?_append]
  cases hhb : b.getLast? with
  | none => exact absurd (List.getLast?_eq_none_iff.mp hhb) hb
  | some d => rfl

theorem strip_fix_of_ends {s : Chars}
    (hh : ∀ c, s.head? = some c → isWS c = false)
    (hl : ∀ c, s.getLast? = some c → isWS c = false) : strip s = s :=
  strip_eq_self hh (fun c hc => hl c (by rwa [List.head?_reverse] at hc))

theorem splitNNAux_no_nn_nil {a : Chars} (ha : hasNN a = false) (acc : Chars) :
    splitNNAux a acc = [acc.reverse ++ a] := by
  induction a generalizing acc with
  | nil => simp [splitNNAux_nil]
  | cons c a' ih =>
    cases a' with
    | nil => simp [splitNNAux]
    | cons d a'' =>
      obtain ⟨hnn, ha'⟩ := hasNN_cons_false ha
      rw [splitNNAux_cons_other acc (by
          simp only [List.head?_cons]
          rintro ⟨hcn, hdn⟩
          exact hnn ⟨hcn, by injection hdn⟩),
        ih ha' (c :: acc)]
      simp

theorem segment_chapter_big {T : Chars} (h : ¬count_tokens T ≤ MAX_TOKENS) :
    segment_chapter T =
      (if ((((splitNN T).map strip).filter (fun p => ¬p.isEmpty)).foldl scStep ([], [])).2.isEmpty
       then ((((splitNN T).map strip).filter (fun p => ¬p.isEmpty)).foldl scStep ([], [])).1
       else ((((splitNN T).map strip).filter (fun p => ¬p.isEmpty)).foldl scStep ([], [])).1
         ++ [strip ((((splitNN T).map strip).filter (fun p => ¬p.isEmpty)).foldl scStep ([], [])).2]) := by
  simp only [segment_chapter]
  rw [if_neg h]

/-! ## Claim C7: greedy packing of three under-budget paragraphs -/

/-- Claim C7: a chapter of exactly three blank-line-separated paragraphs,
each within `MAX_TOKENS`, with the first two jointly within `MAX_TOKENS`
(as measured by the code: sum of paragraph costs without separators) and
all three jointly over it, is segmented into exactly two segments: the
first two paragraphs joined by a blank line, then the third alone. -/
theorem C7_thm (p1 p2 p3 : Chars)
    (h1ne : p1 ≠ []) (h2ne : p2 ≠ []) (h3ne : p3 ≠ [])
    (hs1 : strip p1 = p1) (hs2 : strip p2 = p2) (hs3 : strip p3 = p3)
    (hn1 : hasNN p1 = false) (hn2 : hasNN p2 = false) (hn3 : hasNN p3 = false)
    (hc1 : count_tokens p1 ≤ MAX_TOKENS) (hc2 : count_tokens p2 ≤ MAX_TOKENS)
    (hc3 : count_tokens p3 ≤ MAX_TOKENS)
    (hc12 : count_tokens p1 + count_tokens p2 ≤ MAX_TOKENS)
    (hchap : count_tokens (p1 ++ ('\n' :: '\n' :: (p2 ++ ('\n' :: '\n' :: p3)))) > MAX_TOKENS)
    (hall : count_tokens p1 + count_tokens p2 + count_tokens p3 > MAX_TOKENS) :
    segment_chapter (p1 ++ ('\n' :: '\n' :: (p2 ++ ('\n' :: '\n' :: p3))))
      = [p1 ++ '\n' :: '\n' :: p2, p3] := by
  have hhead1 := strip_fixed_head hs1
  have hlastp2 := strip_fixed_last hs2
  have hlastp3 := strip_fixed_last hs3
  have hl1 : p1.getLast? ≠ some '\n' := by
    intro heq
    exact absurd (strip_fixed_last hs1 '\n' heq) (by decide)
  have hl2 : p2.getLast? ≠ some '\n' := by
    intro heq
    exact absurd (strip_fixed_last hs2 '\n' heq) (by decide)
  have hsplit : splitNN (p1 ++ ('\n' :: '\n' :: (p2 ++ ('\n' :: '\n' :: p3))))
      = [p1, p2, p3] := by
    unfold splitNN
    rw [splitNNAux_no_nn hn1 hl1, splitNNAux_no_nn hn2 hl2,
      splitNNAux_no_nn_nil hn3]
    simp
  rw [segment_chapter_big (by omega)]
  rw [hsplit]
  have hparas : (([p1, p2, p3].map strip).filter (fun p => ¬p.isEmpty))
      = [p1, p2, p3] := by
    simp only [List.map_cons, List.map_nil, hs1, hs2, hs3]
    simp [List.isEmpty_iff, h1ne, h2ne, h3ne]
  rw [hparas]
  have hA : strip (('\n' :: '\n' :: p1) ++ p2) = p1 ++ p2 := by
    rw [List.cons_append, List.cons_append, strip_cons_ws (by decide),
      strip_cons_ws (by decide), strip_fix_append hs1 hs2 h1ne h2ne]
  have step1 : scStep ([], []) p1 = ([], [] ++ '\n' :: '\n' :: p1) :=
    scStep_fits (by omega) (by
      rw [List.nil_append, hs1]
      omega)
  have hp12ne : p1 ++ p2 ≠ [] := fun hx => h1ne (by
    rcases List.append_eq_nil.mp hx with ⟨ha, _⟩
    exact ha)
  have step2 : scStep ([], [] ++ '\n' :: '\n' :: p1) p2
      = ([], ([] ++ '\n' :: '\n' :: p1) ++ '\n' :: '\n' :: p2) :=
    scStep_fits (by omega) (by
      simp only [List.nil_append]
      rw [hA]
      simp only [count_tokens, List.length_append]
      unfold count_tokens at hc12
      omega)
  have hcur2 : (([] ++ '\n' :: '\n' :: p1) ++ '\n' :: '\n' :: p2) ++ p3
      = '\n' :: '\n' :: (p1 ++ ('\n' :: '\n' :: (p2 ++ p3))) := by
    simp
  have hinner : strip (p1 ++ ('\n' :: '\n' :: (p2 ++ p3)))
      = p1 ++ ('\n' :: '\n' :: (p2 ++ p3)) := by
    refine strip_fix_of_ends ?_ ?_
    · intro c hc
      rw [head?_append_left _ h1ne] at hc
      exact hhead1 c hc
    · intro c hc
      have e1 : p1 ++ ('\n' :: '\n' :: (p2 ++ p3))
          = p1 ++ (['\n', '\n'] ++ (p2 ++ p3)) := rfl
      rw [e1, getLast?_append_right _ (by simp),
        getLast?_append_right _ (List.append_ne_nil_of_left_ne_nil h2ne p3),
        getLast?_append_right _ h3ne] at hc
      exact hlastp3 c hc
  have hB : strip ((([] ++ '\n' :: '\n' :: p1) ++ '\n' :: '\n' :: p2) ++ p3)
      = p1 ++ ('\n' :: '\n' :: (p2 ++ p3)) := by
    rw [hcur2, strip_cons_ws (by decide), strip_cons_ws (by decide), hinner]
  have hinner2 : strip (p1 ++ ('\n' :: '\n' :: p2))
      = p1 ++ ('\n' :: '\n' :: p2) := by
    refine strip_fix_of_ends ?_ ?_
    · intro c hc
      rw [head?_append_left _ h1ne] at hc
      exact hhead1 c hc
    · intro c hc
      have e1 : p1 ++ ('\n' :: '\n' :: p2) = p1 ++ (['\n', '\n'] ++ p2) := rfl
      rw [e1, getLast?_append_right _ (by simp),
        getLast?_append_right _ h2ne] at hc
      exact hlastp2 c hc
  have step3 : scStep ([], ([] ++ '\n' :: '\n' :: p1) ++ '\n' :: '\n' :: p2) p3
      = ([p1 ++ '\n' :: '\n' :: p2], p3 ++ ['\n', '\n']) := by
    rw [scStep_flush (by omega) (by
      rw [hB]
      simp only [count_tokens, List.length_append, List.length_cons]
      unfold count_tokens at hall
      omega)]
    have hne : ((([] ++ '\n' :: '\n' :: p1) ++ '\n' :: '\n' :: p2)).isEmpty = false := by
      simp
    rw [hne]
    simp only [List.nil_append, Bool.false_eq_true, if_false]
    have : strip (('\n' :: '\n' :: p1) ++ '\n' :: '\n' :: p2)
        = p1 ++ '\n' :: '\n' :: p2 := by
      rw [List.cons_append, List.cons_append, strip_cons_ws (by decide),
        strip_cons_ws (by decide)]
      have hform : p1 ++ '\n' :: '\n' :: p2 = p1 ++ ('\n' :: '\n' :: p2) := rfl
      rw [hform, hinner2]
    rw [this]
  rw [List.foldl_cons, step1, List.foldl_cons, step2, List.foldl_cons, step3,
    List.foldl_nil]
  have hfin : (p3 ++ ['\n', '\n']).isEmpty = false := by
    cases p3 with
    | nil => exact absurd rfl h3ne
    | cons x xs => simp
  rw [hfin]
  simp only [Bool.false_eq_true, if_false]
  rw [strip_append_ws (by decide), hs3]
  rfl

theorem hasNN_replicate {c : Char} (h : (c == '\n') = false) (n : Nat) :
    hasNN (List.replicate n c) = false := by
  induction n with
  | zero => rfl
  | succ m ih =>
    cases m with
    | zero => rfl
    | succ k =>
      rw [List.replicate_succ, List.replicate_succ]
      show hasNN (c :: c :: List.replicate k c) = false
      unfold hasNN
      rw [← List.replicate_succ, ih, h]
      rfl

theorem replicate_ne_nil {n : Nat} (c : Char) (h : 0 < n) :
    List.replicate n c ≠ [] := by
  intro he
  have hlen := congrArg List.length he
  rw [List.length_replicate] at hlen
  simp at hlen
  omega

/-- Witness for C7: paragraphs of 3000, 3000 and 2000 identical characters. -/
theorem C7_witness :
    count_tokens (List.replicate 3000 'a') + count_tokens (List.replicate 3000 'b')
        ≤ MAX_TOKENS ∧
      count_tokens (List.replicate 3000 'a') + count_tokens (List.replicate 3000 'b')
          + count_tokens (List.replicate 2000 'c') > MAX_TOKENS ∧
      segment_chapter (List.replicate 3000 'a'
          ++ ('\n' :: '\n' :: (List.replicate 3000 'b'
            ++ ('\n' :: '\n' :: List.replicate 2000 'c'))))
        = [List.replicate 3000 'a' ++ '\n' :: '\n' :: List.replicate 3000 'b',
            List.replicate 2000 'c'] := by
  refine ⟨?_, ?_, ?_⟩
  · simp only [count_tokens, List.length_replicate, MAX_TOKENS]
    omega
  · simp only [count_tokens, List.length_replicate, MAX_TOKENS]
    omega
  · exact C7_thm (List.replicate 3000 'a') (List.replicate 3000 'b')
      (List.replicate 2000 'c')
      (replicate_ne_nil 'a' (by omega)) (replicate_ne_nil 'b' (by omega))
      (replicate_ne_nil 'c' (by omega))
      (strip_replicate (by decide) 3000) (strip_replicate (by decide) 3000)
      (strip_replicate (by decide) 2000)
      (hasNN_replicate (by decide) 3000) (hasNN_replicate (by decide) 3000)
      (hasNN_replicate (by decide) 2000)
      (by simp only [count_tokens, List.length_replicate, MAX_TOKENS]
          omega)
      (by simp only [count_tokens, List.length_replicate, MAX_TOKENS]
          omega)
      (by simp only [count_tokens, List.length_replicate, MAX_TOKENS]
          omega)
      (by simp only [count_tokens, List.length_replicate, MAX_TOKENS]
          omega)
      (by simp only [count_tokens, List.length_append, List.length_cons,
            List.length_replicate, MAX_TOKENS]
          omega)
      (by simp only [count_tokens, List.length_replicate, MAX_TOKENS]
          omega)

/-! ## Claims C1 and C2: the accumulator check ignores separators -/

theorem two_paras_one_segment (p1 p2 : Chars)
    (h1ne : p1 ≠ []) (h2ne : p2 ≠ [])
    (hs1 : strip p1 = p1) (hs2 : strip p2 = p2)
    (hn1 : hasNN p1 = false) (hn2 : hasNN p2 = false)
    (hc1 : count_tokens p1 ≤ MAX_TOKENS)
    (hc12 : count_tokens p1 + count_tokens p2 ≤ MAX_TOKENS)
    (hchap : count_tokens (p1 ++ ('\n' :: '\n' :: p2)) > MAX_TOKENS) :
    segment_chapter (p1 ++ ('\n' :: '\n' :: p2))
      = [p1 ++ '\n' :: '\n' :: p2] := by
  have hhead1 := strip_fixed_head hs1
  have hlastp2 := strip_fixed_last hs2
  have hl1 : p1.getLast? ≠ some '\n' := by
    intro heq
    exact absurd (strip_fixed_last hs1 '\n' heq) (by decide)
  have hsplit : splitNN (p1 ++ ('\n' :: '\n' :: p2)) = [p1, p2] := by
    unfold splitNN
    rw [splitNNAux_no_nn hn1 hl1, splitNNAux_no_nn_nil hn2]
    simp
  rw [segment_chapter_big (by omega)]
  rw [hsplit]
  have hparas : (([p1, p2].map strip).filter (fun p => ¬p.isEmpty)) = [p1, p2] := by
    simp only [List.map_cons, List.map_nil, hs1, hs2]
    simp [List.isEmpty_iff, h1ne, h2ne]
  rw [hparas]
  have hA : strip (('\n' :: '\n' :: p1) ++ p2) = p1 ++ p2 := by
    rw [List.cons_append, List.cons_append, strip_cons_ws (by decide),
      strip_cons_ws (by decide), strip_fix_append hs1 hs2 h1ne h2ne]
  have step1 : scStep ([], []) p1 = ([], [] ++ '\n' :: '\n' :: p1) :=
    scStep_fits (by omega) (by
      rw [List.nil_append, hs1]
      omega)
  have step2 : scStep ([], [] ++ '\n' :: '\n' :: p1) p2
      = ([], ([] ++ '\n' :: '\n' :: p1) ++ '\n' :: '\n' :: p2) :=
    scStep_fits (by omega) (by
      simp only [List.nil_append]
      rw [hA]
      simp only [count_tokens, List.length_append]
      unfold count_tokens at hc12
      omega)
  rw [List.foldl_cons, step1, List.foldl_cons, step2, List.foldl_nil]
  have hinner2 : strip (p1 ++ ('\n' :: '\n' :: p2))
      = p1 ++ ('\n' :: '\n' :: p2) := by
    refine strip_fix_of_ends ?_ ?_
    · intro c hc
      rw [head?_append_left _ h1ne] at hc
      exact hhead1 c hc
    · intro c hc
      have e1 : p1 ++ ('\n' :: '\n' :: p2) = p1 ++ (['\n', '\n'] ++ p2) := rfl
      rw [e1, getLast?_append_right _ (by simp),
        getLast?_append_right _ h2ne] at hc
      exact hlastp2 c hc
  have hnemp : (([] ++ '\n' :: '\n' :: p1) ++ '\n' :: '\n' :: p2).isEmpty = false := by
    simp
  rw [hnemp]
  simp only [Bool.false_eq_true, if_false]
  have e : (([] : Chars) ++ '\n' :: '\n' :: p1) ++ '\n' :: '\n' :: p2
      = '\n' :: '\n' :: (p1 ++ ('\n' :: '\n' :: p2)) := by simp
  rw [e, strip_cons_ws (by decide), strip_cons_ws (by decide), hinner2]
  rfl

/-- Claim C1 (code evaluation at the failing input): the chapter `accT` —
two 3000-character paragraphs separated by a blank line — has token cost
6002 > MAX_TOKENS, contains no whitespace-delimited word over the budget,
and `segment_chapter` returns it whole as a single segment of cost
6002 > MAX_TOKENS: the accumulator check at line 223 measures the two
paragraphs without their separator.  This contradicts the docstring of
`segment_chapter` ("ensuring no single segment exceeds MAX_TOKENS"). -/
theorem C1_code_eval :
    count_tokens accT = MAX_TOKENS + 2 ∧
      segment_chapter accT = [accT] ∧
      pysplit accT = [List.replicate 3000 'a', List.replicate 3000 'b'] ∧
      ∀ w ∈ pysplit accT, count_tokens w ≤ MAX_TOKENS := by
  have hsplit : pysplit accT = [List.replicate 3000 'a', List.replicate 3000 'b'] := by
    unfold pysplit accT
    rw [@pysplitAux_replicate 'a' (by decide) 3000
        ('\n' :: '\n' :: List.replicate 3000 'b') [],
      pysplitAux_cons_ws _ (by decide), pysplitAux_cons_ws _ (by decide)]
    have h1 := @pysplitAux_replicate 'b' (by decide) 3000 [] []
    simp only [List.append_nil] at h1
    rw [h1, pysplitAux_nil]
    simp only [List.append_nil, List.reverse_replicate]
    rfl
  refine ⟨?_, ?_, hsplit, ?_⟩
  · unfold accT
    simp only [count_tokens, List.length_append, List.length_cons,
      List.length_replicate, MAX_TOKENS]
  · unfold accT
    exact two_paras_one_segment (List.replicate 3000 'a') (List.replicate 3000 'b')
      (replicate_ne_nil 'a' (by omega)) (replicate_ne_nil 'b' (by omega))
      (strip_replicate (by decide) 3000) (strip_replicate (by decide) 3000)
      (hasNN_replicate (by decide) 3000) (hasNN_replicate (by decide) 3000)
      (by simp only [count_tokens, List.length_replicate, MAX_TOKENS]
          omega)
      (by simp only [count_tokens, List.length_replicate, MAX_TOKENS]
          omega)
      (by simp only [count_tokens, List.length_append, List.length_cons,
            List.length_replicate, MAX_TOKENS]
          omega)
  · intro w hw
    rw [hsplit] at hw
    rcases List.mem_cons.mp hw with h1 | h2
    · subst h1
      simp only [count_tokens, List.length_replicate, MAX_TOKENS]
      omega
    · rcases List.mem_cons.mp h2 with h3 | h4
      · subst h3
        simp only [count_tokens, List.length_replicate, MAX_TOKENS]
        omega
      · simp at h4

/-- Claim C2 (code evaluation at the failing input): `accT` has token cost
6002 > MAX_TOKENS, yet `segment_chapter` returns a single segment, not two
or more: the accumulator check at line 223 measures candidate segments
without the blank-line separators that the accumulator itself contains. -/
theorem C2_code_eval :
    count_tokens accT > MAX_TOKENS ∧ (segment_chapter accT).length = 1 := by
  constructor
  · unfold accT
    simp only [count_tokens, List.length_append, List.length_cons,
      List.length_replicate, MAX_TOKENS]
    omega
  · have h := two_paras_one_segment (List.replicate 3000 'a') (List.replicate 3000 'b')
      (replicate_ne_nil 'a' (by omega)) (replicate_ne_nil 'b' (by omega))
      (strip_replicate (by decide) 3000) (strip_replicate (by decide) 3000)
      (hasNN_replicate (by decide) 3000) (hasNN_replicate (by decide) 3000)
      (by simp only [count_tokens, List.length_replicate, MAX_TOKENS]
          omega)
      (by simp only [count_tokens, List.length_replicate, MAX_TOKENS]
          omega)
      (by simp only [count_tokens, List.length_append, List.length_cons,
            List.length_replicate, MAX_TOKENS]
          omega)
    unfold accT
    rw [h]
    rfl

/-! ## Claim C10: the leading empty piece of force_substring_chunks -/

theorem hasNN_of_no_nl {l : Chars} (h : ∀ c ∈ l, (c == '\n') = false) :
    hasNN l = false := by
  induction l with
  | nil => rfl
  | cons c l' ih =>
    cases l' with
    | nil => rfl
    | cons d l'' =>
      show ((c == '\n' && d == '\n') || hasNN (d :: l'')) = false
      rw [h c (by simp), ih (fun x hx => h x (by simp [List.mem_cons.mp hx]))]
      rfl

theorem sentSplitAux_no_end {s : Chars} (h : ∀ c ∈ s, sentEnd c = false) :
    ∀ acc, sentSplitAux s acc false = [acc.reverse ++ s] := by
  induction s with
  | nil => intro acc; simp [sentSplitAux_nil]
  | cons c rest ih =>
    intro acc
    rw [sentSplitAux_cons_mid_noskip acc (h c (by simp)),
      ih (fun x hx => h x (by simp [hx])) (c :: acc)]
    simp

theorem head?_mem {s : Chars} {c : Char} (h : s.head? = some c) : c ∈ s := by
  cases s with
  | nil => simp at h
  | cons d rest =>
    simp only [List.head?_cons, Option.some.injEq] at h
    simp [h]

theorem strip_fix_of_all_nonws {s : Chars} (h : ∀ c ∈ s, isWS c = false) :
    strip s = s := by
  refine strip_eq_self (fun c hc => h c (head?_mem hc)) (fun c hc => ?_)
  exact h c (List.mem_reverse.mp (head?_mem hc))

theorem blpStep_init_over {s : Chars}
    (hover : count_tokens (strip s) > SUB_CHUNK_SIZE) :
    blpStep ([], []) s = ([], strip s) := by
  have e : ([] : Chars) ++ (if ([] : Chars).isEmpty = true then [] else [' ']) ++ s
      = s := rfl
  have e2 : (if ([] : Chars).isEmpty = true then ([] : List Chars) else [] ++ [[]])
      = [] := rfl
  simp only [blpStep, e, e2]
  rw [if_pos hover, if_neg (by simp)]

theorem fsc_single_oversized {P : Chars} {N : Nat} (hsplit : pysplit P = [P])
    (hbig : count_tokens P > N) : force_substring_chunks P N = [[], P] := by
  simp only [force_substring_chunks, hsplit]
  rw [List.foldl_cons, List.foldl_nil]
  have hstep : fscStep N ([], [], 0) P = ([[]], [P], P.length) := by
    unfold fscStep
    rw [if_pos (by
      unfold count_tokens at hbig
      simp only []
      omega)]
    rfl
  rw [hstep]
  rfl

/-- Claim C10 (counterexample to the stated consequence): the paragraph
`punctP` — three 3000-character sentences ending in CJK full stops, no
whitespace anywhere, total cost 9000 > MAX_TOKENS — is split into three
sentence sub-chunks of 3000 tokens each, all within MAX_TOKENS, so
`segment_chapter` emits NO empty segment: a whitespace-free over-budget
paragraph reaches `force_substring_chunks` only when sentence splitting
also fails to bring it under the budget. -/
theorem C10_counterexample :
    (∀ c ∈ punctP, isWS c = false) ∧
      count_tokens punctP > MAX_TOKENS ∧
      [] ∉ segment_chapter punctP := by
  have hmemA : ∀ c ∈ sentA, isWS c = false := by
    intro c hc
    unfold sentA at hc
    rcases List.mem_append.mp hc with h1 | h2
    · rw [(List.mem_replicate.mp h1).2]
      decide
    · simp only [List.mem_singleton] at h2
      rw [h2]
      decide
  have hmem : ∀ c ∈ punctP, isWS c = false := by
    intro c hc
    unfold punctP at hc
    rcases List.mem_append.mp hc with h1 | h2
    · rcases List.mem_append.mp h1 with h3 | h4
      · exact hmemA c h3
      · exact hmemA c h4
    · exact hmemA c h2
  have hAne : sentA ≠ [] := by
    unfold sentA
    exact List.append_ne_nil_of_left_ne_nil (replicate_ne_nil 'a' (by omega)) _
  have hEmpA : sentA.isEmpty = false := by
    cases hA : sentA with
    | nil => exact absurd hA hAne
    | cons x xs => rfl
  have hcA : count_tokens sentA = 3000 := by
    unfold sentA
    simp only [count_tokens, List.length_append, List.length_replicate,
      List.length_cons, List.length_nil]
  have hstripA : strip sentA = sentA := strip_fix_of_all_nonws hmemA
  have hne : punctP ≠ [] := by
    unfold punctP
    exact List.append_ne_nil_of_left_ne_nil
      (List.append_ne_nil_of_left_ne_nil hAne _) _
  have hbigP : count_tokens punctP > MAX_TOKENS := by
    unfold punctP sentA
    simp only [count_tokens, List.length_append, List.length_replicate,
      List.length_cons, List.length_nil, MAX_TOKENS]
    omega
  refine ⟨hmem, hbigP, ?_⟩
  have hnl : ∀ c ∈ punctP, (c == '\n') = false := by
    intro c hc
    cases hbeq : c == '\n'
    · rfl
    · have hcn : c = '\n' := by simpa using hbeq
      subst hcn
      exact absurd (hmem _ hc) (by decide)
  have hsplitP : splitNN punctP = [punctP] := by
    unfold splitNN
    rw [splitNNAux_no_nn_nil (hasNN_of_no_nl hnl)]
    simp
  have hstrip : strip punctP = punctP := strip_fix_of_all_nonws hmem
  have hparas : (([punctP].map strip).filter (fun p => ¬p.isEmpty)) = [punctP] := by
    simp only [List.map_cons, List.map_nil, hstrip]
    simp [List.isEmpty_iff, hne]
  have hsent : sentSplitAux punctP [] false = [sentA, sentA, sentA, []] := by
    have e1 : punctP = List.replicate 2999 'a' ++ ('。' :: (sentA ++ sentA)) := by
      unfold punctP sentA
      simp only [List.append_assoc, List.cons_append, List.singleton_append,
        List.nil_append]
    rw [e1, @sentSplitAux_replicate 'a' (by decide) (by decide) 2999
      ('。' :: (sentA ++ sentA)) [] false]
    rw [sentSplitAux_cons_end _ _ (by decide)]
    have e2 : sentA ++ sentA = List.replicate 2999 'a' ++ ('。' :: sentA) := by
      unfold sentA
      simp only [List.append_assoc, List.cons_append, List.singleton_append,
        List.nil_append]
    rw [e2, @sentSplitAux_replicate 'a' (by decide) (by decide) 2999
      ('。' :: sentA) [] true]
    rw [sentSplitAux_cons_end _ _ (by decide)]
    have e3 : sentA = List.replicate 2999 'a' ++ ('。' :: []) := rfl
    conv in sentSplitAux sentA [] true => rw [e3]
    rw [@sentSplitAux_replicate 'a' (by decide) (by decide) 2999
      ('。' :: []) [] true]
    rw [sentSplitAux_cons_end _ _ (by decide), sentSplitAux_nil]
    simp only [List.append_nil, List.reverse_cons, List.reverse_replicate,
      List.reverse_nil, List.nil_append]
    rfl
  have hov : overlapOf sentA = [] := by
    unfold overlapOf
    rw [pysplit_word_eq hAne hmemA]
    show overlapAux [sentA] 0 [] = []
    unfold overlapAux
    rw [if_neg (by
      rw [show sentA.length = 3000 from hcA]
      unfold OVERLAP_TOKENS
      omega)]
  have hcand2 : strip (sentA ++ [' '] ++ sentA) = sentA ++ [' '] ++ sentA := by
    refine strip_fix_of_ends ?_ ?_
    · intro c hc
      rw [List.append_assoc, head?_append_left _ hAne] at hc
      exact hmemA c (head?_mem hc)
    · intro c hc
      rw [getLast?_append_right _ hAne] at hc
      have hcm : c ∈ sentA := by
        rw [List.getLast?_eq_head?_reverse] at hc
        exact List.mem_reverse.mp (head?_mem hc)
      exact hmemA c hcm
  have hcand2' : count_tokens (strip (sentA ++ [' '] ++ sentA)) > SUB_CHUNK_SIZE := by
    rw [hcand2]
    simp only [count_tokens, List.length_append, List.length_cons,
      List.length_nil, SUB_CHUNK_SIZE]
    rw [show sentA.length = 3000 from hcA]
    omega
  have hstep1 : blpStep ([], []) sentA = ([], sentA) := by
    have e : ([] : Chars) ++ (if ([] : Chars).isEmpty = true then [] else [' ']) ++ sentA
        = sentA := rfl
    simp only [blpStep, e]
    rw [if_neg (by
      rw [hstripA, hcA]
      unfold SUB_CHUNK_SIZE
      omega), hstripA]
  have hstep2 : ∀ chs : List Chars, blpStep (chs, sentA) sentA = (chs ++ [sentA], sentA) := by
    intro chs
    simp only [blpStep, hEmpA]
    rw [if_pos (by
      simp only [Bool.false_eq_true, if_false]
      exact hcand2')]
    simp only [Bool.false_eq_true, if_false]
    rw [if_pos (by
      constructor
      · unfold OVERLAP_TOKENS
        omega
      · simp)]
    rw [show (chs ++ [sentA]).getLastD [] = sentA from by
      rw [List.getLastD_eq_getLast?, List.getLast?_concat]
      rfl]
    rw [hov, List.nil_append, hstripA]
  have hblp : break_large_paragraph punctP = [sentA, sentA, sentA] := by
    simp only [break_large_paragraph, hsent]
    have hfilter : (([sentA, sentA, sentA, []].map strip).filter
        (fun p => ¬p.isEmpty)) = [sentA, sentA, sentA] := by
      simp only [List.map_cons, List.map_nil, hstripA]
      rw [show strip ([] : Chars) = [] from rfl]
      rfl
    rw [hfilter, List.foldl_cons, hstep1, List.foldl_cons, hstep2 [],
      List.foldl_cons, hstep2 ([] ++ [sentA]), List.foldl_nil]
    simp only [List.nil_append, hEmpA, Bool.false_eq_true, if_false]
    rfl
  have hfits : count_tokens sentA ≤ MAX_TOKENS := by
    rw [hcA]
    decide
  have hseg : segment_chapter punctP = [sentA, sentA, sentA] := by
    rw [segment_chapter_big (by omega), hsplitP, hparas, List.foldl_cons,
      List.foldl_nil, @scStep_big ([], []) punctP hbigP, hblp]
    dsimp only
    rw [if_pos (show List.isEmpty ([] : Chars) = true from rfl),
      if_pos (show List.isEmpty ([] : Chars) = true from rfl)]
    rw [List.foldl_cons, if_pos hfits, List.foldl_cons, if_pos hfits,
      List.foldl_cons, if_pos hfits, List.foldl_nil]
    rfl
  rw [hseg]
  intro hmem2
  rcases List.mem_cons.mp hmem2 with h1 | h2
  · exact hAne h1.symm
  · rcases List.mem_cons.mp h2 with h3 | h4
    · exact hAne h3.symm
    · rcases List.mem_cons.mp h4 with h5 | h6
      · exact hAne h5.symm
      · simp at h6

theorem head?_append_left_gen {α : Type} {a : List α} (b : List α)
    (ha : a ≠ []) : (a ++ b).head? = a.head? := by
  rw [List.head?_append]
  cases hha : a.head? with
  | none => exact absurd (List.head?_eq_none_iff.mp hha) ha
  | some d => rfl

theorem fsc_first_oversized {text : Chars} {N : Nat} {w : Chars} {ws : List Chars}
    (hsplit : pysplit text = w :: ws) (hw : count_tokens w > N) :
    (force_substring_chunks text N).head? = some [] := by
  simp only [force_substring_chunks, hsplit]
  rw [List.foldl_cons]
  have hstep : fscStep N ([], [], 0) w = ([[]], [w], w.length) := by
    unfold fscStep
    rw [if_pos (by
      unfold count_tokens at hw
      simp only []
      omega)]
    rfl
  rw [hstep]
  have hinv : ((ws.foldl (fscStep N) ([[]], [w], w.length)).1).head? = some [] := by
    refine foldl_inv (fscStep N) (fun st => st.1.head? = some []) (fun _ => True)
      ws ([[]], [w], w.length) rfl ?_ (fun _ _ => trivial)
    intro st x hP _
    unfold fscStep
    split
    · show (st.1 ++ [joinSpace st.2.1]).head? = some []
      rw [@head?_append_left_gen Chars st.1 [joinSpace st.2.1] (by
        intro h
        rw [h] at hP
        simp at hP)]
      exact hP
    · exact hP
  split
  · exact hinv
  · rw [@head?_append_left_gen Chars (ws.foldl (fscStep N) ([[]], [w], w.length)).1
      [joinSpace (ws.foldl (fscStep N) ([[]], [w], w.length)).2.1] (by
      intro h
      rw [h] at hinv
      simp at hinv)]
    exact hinv

theorem seg_empty_of_blob {P : Chars} (hws : ∀ c ∈ P, isWS c = false)
    (hse : ∀ c ∈ P, sentEnd c = false) (hbig : count_tokens P > MAX_TOKENS) :
    [] ∈ segment_chapter P := by
  have hne : P ≠ [] := by
    intro h
    subst h
    unfold count_tokens MAX_TOKENS at hbig
    simp at hbig
  have hnl : ∀ c ∈ P, (c == '\n') = false := by
    intro c hc
    cases hbeq : c == '\n'
    · rfl
    · have hcn : c = '\n' := by simpa using hbeq
      subst hcn
      exact absurd (hws _ hc) (by decide)
  have hstrip : strip P = P := strip_fix_of_all_nonws hws
  have hsplitP : splitNN P = [P] := by
    unfold splitNN
    rw [splitNNAux_no_nn_nil (hasNN_of_no_nl hnl)]
    simp
  have hparas : (([P].map strip).filter (fun p => ¬p.isEmpty)) = [P] := by
    simp only [List.map_cons, List.map_nil, hstrip]
    simp [List.isEmpty_iff, hne]
  have hsent : sentSplitAux P [] false = [P] := by
    rw [sentSplitAux_no_end hse]
    simp
  have hbig3 : count_tokens (strip P) > SUB_CHUNK_SIZE := by
    rw [hstrip]
    unfold MAX_TOKENS at hbig
    unfold SUB_CHUNK_SIZE
    omega
  have hPemp : P.isEmpty = false := by
    cases hp : P with
    | nil => exact absurd hp hne
    | cons x xs => rfl
  have hblp : break_large_paragraph P = [P] := by
    simp only [break_large_paragraph, hsent]
    rw [hparas, List.foldl_cons, List.foldl_nil, blpStep_init_over hbig3, hstrip]
    rw [hPemp]
    rfl
  have hfsc : force_substring_chunks P MAX_TOKENS = [[], P] :=
    fsc_single_oversized (pysplit_word_eq hne hws) hbig
  rw [segment_chapter_big (by omega), hsplitP, hparas, List.foldl_cons,
    List.foldl_nil, @scStep_big ([], []) P hbig, hblp]
  dsimp only
  rw [if_pos (show List.isEmpty ([] : Chars) = true from rfl),
    if_pos (show List.isEmpty ([] : Chars) = true from rfl)]
  rw [List.foldl_cons, if_neg (by omega), hfsc, List.foldl_nil]
  exact List.mem_cons_self [] [P]

/-- Claim C10 (amended): (1) for every text whose first whitespace-delimited
word has cost exceeding `max_size`, `force_substring_chunks` returns the
empty string as its first piece; consequently (2) for a chapter consisting
of a paragraph exceeding `MAX_TOKENS` that contains no whitespace AND no
sentence-ending punctuation, `segment_chapter` emits an empty segment.
(Without the no-punctuation condition part (2) is false: see the
counterexample, where sentence splitting averts the forced chunking.) -/
theorem C10_amended :
    (∀ (text : Chars) (maxSize : Nat) (w : Chars) (ws : List Chars),
        pysplit text = w :: ws → count_tokens w > maxSize →
        (force_substring_chunks text maxSize).head? = some []) ∧
    (∀ P : Chars, (∀ c ∈ P, isWS c = false) → (∀ c ∈ P, sentEnd c = false) →
        count_tokens P > MAX_TOKENS → [] ∈ segment_chapter P) :=
  ⟨fun _ _ _ _ hs hw => fsc_first_oversized hs hw,
   fun _ hws hse hbig => seg_empty_of_blob hws hse hbig⟩

/-- Witness for C10 (amended), at `text = "bbb"`, `max_size = 2` for part
(1) and at the 6001-character whitespace-free paragraph for part (2). -/
theorem C10_witness :
    (pysplit ['b', 'b', 'b'] = [['b', 'b', 'b']] ∧
      count_tokens ['b', 'b', 'b'] > 2 ∧
      (force_substring_chunks ['b', 'b', 'b'] 2).head? = some []) ∧
    ((∀ c ∈ List.replicate 6001 'x', isWS c = false) ∧
      (∀ c ∈ List.replicate 6001 'x', sentEnd c = false) ∧
      count_tokens (List.replicate 6001 'x') > MAX_TOKENS ∧
      [] ∈ segment_chapter (List.replicate 6001 'x')) := by
  have hw : ∀ c ∈ List.replicate 6001 'x', isWS c = false := by
    intro c hc
    rw [(List.mem_replicate.mp hc).2]
    decide
  have hs : ∀ c ∈ List.replicate 6001 'x', sentEnd c = false := by
    intro c hc
    rw [(List.mem_replicate.mp hc).2]
    decide
  have hc : count_tokens (List.replicate 6001 'x') > MAX_TOKENS := by
    simp only [count_tokens, List.length_replicate, MAX_TOKENS]
    omega
  exact ⟨⟨by decide, by decide,
      C10_amended.1 ['b', 'b', 'b'] 2 ['b', 'b', 'b'] [] (by decide) (by decide)⟩,
    hw, hs, hc, C10_amended.2 (List.replicate 6001 'x') hw hs hc⟩

/-! ## Claim C5: non-whitespace content is preserved, in order -/

theorem nonWS_append (a b : Chars) : nonWS (a ++ b) = nonWS a ++ nonWS b :=
  List.filter_append a b

theorem nonWS_cons_ws {c : Char} (h : isWS c = true) (l : Chars) :
    nonWS (c :: l) = nonWS l := by
  simp [nonWS, List.filter_cons, h]

theorem nonWS_cons_split (c : Char) (l : Chars) :
    nonWS (c :: l) = nonWS [c] ++ nonWS l := by
  cases h : isWS c <;> simp [nonWS, List.filter_cons, h]

theorem nonWS_nil : nonWS [] = [] := rfl

theorem nonWS_dropWhile (l : Chars) : nonWS (l.dropWhile isWS) = nonWS l := by
  induction l with
  | nil => rfl
  | cons c rest ih =>
    rw [List.dropWhile_cons]
    cases h : isWS c with
    | true =>
      rw [if_pos rfl, ih, nonWS_cons_ws h]
    | false =>
      rw [if_neg Bool.false_ne_true]

theorem nonWS_reverse (l : Chars) : nonWS l.reverse = (nonWS l).reverse :=
  List.filter_reverse _ l

theorem nonWS_strip (s : Chars) : nonWS (strip s) = nonWS s := by
  unfold strip
  rw [nonWS_reverse, nonWS_dropWhile, nonWS_reverse, nonWS_dropWhile,
    List.reverse_reverse]

theorem nonWS_all_nonws {s : Chars} (h : ∀ c ∈ s, isWS c = false) :
    nonWS s = s := by
  unfold nonWS
  rw [List.filter_eq_self.mpr (fun a ha => by rw [h a ha]; rfl)]

theorem splitNNAux_content : ∀ (n : Nat) (s acc : Chars), s.length ≤ n →
    ((splitNNAux s acc).map nonWS).flatten = nonWS acc.reverse ++ nonWS s := by
  intro n
  induction n with
  | zero =>
    intro s acc hlen
    rw [List.length_eq_zero.mp (Nat.le_zero.mp hlen)]
    simp [splitNNAux_nil, nonWS_nil]
  | succ m ih =>
    intro s acc hlen
    match s with
    | [] => simp [splitNNAux_nil, nonWS_nil]
    | [c] =>
      show ((([(c :: acc).reverse]).map nonWS)).flatten = _
      simp only [List.map_cons, List.map_nil, List.flatten_cons,
        List.flatten_nil, List.append_nil, List.reverse_cons]
      rw [nonWS_append, nonWS_cons_split c []]
    | c :: d :: rest =>
      by_cases hnn : c = '\n' ∧ d = '\n'
      · obtain ⟨rfl, rfl⟩ := hnn
        rw [splitNNAux_nn]
        simp only [List.map_cons, List.flatten_cons]
        rw [ih rest [] (by
          simp only [List.length_cons] at hlen
          omega)]
        rw [nonWS_cons_ws (by decide), nonWS_cons_ws (by decide)]
        simp [nonWS_nil]
      · rw [splitNNAux_cons_other acc (by
          simp only [List.head?_cons]
          rintro ⟨hc, hd⟩
          exact hnn ⟨hc, by injection hd⟩)]
        rw [ih (d :: rest) (c :: acc) (by
          simp only [List.length_cons] at hlen ⊢
          omega)]
        rw [List.reverse_cons, nonWS_append, nonWS_cons_split c (d :: rest)]
        simp [nonWS_nil]

theorem splitNN_content (T : Chars) :
    ((splitNN T).map nonWS).flatten = nonWS T := by
  unfold splitNN
  rw [splitNNAux_content T.length T [] (Nat.le_refl _)]
  simp [nonWS_nil]

theorem ws_not_sentEnd {c : Char} (h : isWS c = true) : sentEnd c = false := by
  cases hs : sentEnd c
  · rfl
  · exact absurd h (by rw [sentEnd_not_ws hs]; exact Bool.false_ne_true)

theorem sentSplitAux_content (s : Chars) : ∀ (acc : Chars) (skip : Bool),
    ((sentSplitAux s acc skip).map nonWS).flatten = nonWS acc.reverse ++ nonWS s := by
  induction s with
  | nil =>
    intro acc skip
    simp [sentSplitAux_nil, nonWS_nil]
  | cons c rest ih =>
    intro acc skip
    cases hws : isWS c with
    | true =>
      have hse : sentEnd c = false := ws_not_sentEnd hws
      cases skip with
      | true =>
        rw [sentSplitAux_cons_skip acc hws, ih acc true, nonWS_cons_ws hws]
      | false =>
        rw [sentSplitAux_cons_mid_noskip acc hse, ih (c :: acc) false,
          List.reverse_cons, nonWS_append, nonWS_cons_split c rest]
        rw [show nonWS [c] = [] from by simp [nonWS, List.filter_cons, hws]]
        simp
    | false =>
      cases hse : sentEnd c with
      | true =>
        rw [sentSplitAux_cons_end acc skip hse]
        simp only [List.map_cons, List.flatten_cons]
        rw [ih [] true, List.reverse_cons, nonWS_append,
          nonWS_cons_split c rest]
        simp [nonWS_nil]
      | false =>
        rw [sentSplitAux_cons_mid acc skip hse hws, ih (c :: acc) false,
          List.reverse_cons, nonWS_append, nonWS_cons_split c rest]
        simp

theorem content_filter_strip (X : List Chars) :
    ((((X.map strip).filter (fun s => ¬s.isEmpty)).map nonWS)).flatten
      = (X.map nonWS).flatten := by
  induction X with
  | nil => rfl
  | cons x rest ih =>
    simp only [List.map_cons, List.filter_cons, List.flatten_cons]
    by_cases he : (strip x).isEmpty
    · rw [if_neg (by simpa using he)]
      rw [ih]
      have hx : nonWS x = [] := by
        rw [← nonWS_strip, List.isEmpty_iff.mp he]
        rfl
      rw [hx]
      rfl
    · rw [if_pos (by simpa using he)]
      simp only [List.map_cons, List.flatten_cons]
      rw [ih, nonWS_strip]

theorem pysplitAux_content (s : Chars) : ∀ acc : Chars,
    (pysplitAux s acc).flatten = acc.reverse ++ nonWS s := by
  induction s with
  | nil =>
    intro acc
    rw [pysplitAux_nil]
    by_cases ha : acc.isEmpty
    · rw [if_pos ha, List.isEmpty_iff.mp ha]
      rfl
    · rw [if_neg ha]
      simp [nonWS_nil]
  | cons c rest ih =>
    intro acc
    cases hws : isWS c with
    | true =>
      rw [pysplitAux_cons_ws acc hws]
      rw [List.flatten_append, ih [], nonWS_cons_ws hws]
      by_cases ha : acc.isEmpty
      · rw [if_pos ha, List.isEmpty_iff.mp ha]
        rfl
      · rw [if_neg ha]
        simp
    | false =>
      rw [pysplitAux_cons_notws acc hws, ih (c :: acc), List.reverse_cons,
        nonWS_cons_split c rest]
      rw [show nonWS [c] = [c] from by simp [nonWS, List.filter_cons, hws]]
      simp

theorem pysplit_content (t : Chars) : (pysplit t).flatten = nonWS t := by
  unfold pysplit
  rw [pysplitAux_content t []]
  rfl

theorem nonWS_joinSpace {g : List Chars}
    (h : ∀ w ∈ g, ∀ c ∈ w, isWS c = false) :
    nonWS (joinSpace g) = g.flatten := by
  induction g with
  | nil => rfl
  | cons w rest ih =>
    cases rest with
    | nil =>
      show nonWS w = w ++ [].flatten
      rw [nonWS_all_nonws (h w (by simp))]
      simp
    | cons v rest2 =>
      show nonWS (w ++ ' ' :: joinSpace (v :: rest2)) = w ++ (v :: rest2).flatten
      rw [nonWS_append, nonWS_cons_ws (by decide),
        ih (fun x hx => h x (by simp [List.mem_cons.mp hx])),
        nonWS_all_nonws (h w (by simp))]

theorem fscStep_cur_words (N : Nat) (st : List Chars × List Chars × Nat)
    (x : Chars) (hcur : ∀ w ∈ st.2.1, ∀ c ∈ w, isWS c = false)
    (hx : ∀ c ∈ x, isWS c = false) :
    ∀ w ∈ (fscStep N st x).2.1, ∀ c ∈ w, isWS c = false := by
  unfold fscStep
  split
  · intro w hw
    simp only [List.mem_singleton] at hw
    subst hw
    exact hx
  · intro w hw
    rcases List.mem_append.mp hw with h1 | h2
    · exact hcur w h1
    · simp only [List.mem_singleton] at h2
      subst h2
      exact hx

theorem fsc_fold_content (N : Nat) (wsl : List Chars) :
    ∀ (st : List Chars × List Chars × Nat),
    (∀ w ∈ st.2.1, ∀ c ∈ w, isWS c = false) →
    (∀ w ∈ wsl, ∀ c ∈ w, isWS c = false) →
    ((wsl.foldl (fscStep N) st).1.map nonWS).flatten
        ++ ((wsl.foldl (fscStep N) st).2.1).flatten
      = (st.1.map nonWS).flatten ++ st.2.1.flatten ++ wsl.flatten := by
  induction wsl with
  | nil =>
    intro st _ _
    simp
  | cons x rest ih =>
    intro st hcur hws
    rw [List.foldl_cons]
    rw [ih (fscStep N st x)
      (fscStep_cur_words N st x hcur (hws x (by simp)))
      (fun w hw => hws w (by simp [hw]))]
    unfold fscStep
    split
    · simp only [List.map_append, List.map_cons, List.map_nil,
        List.flatten_append, List.flatten_cons, List.flatten_nil]
      rw [nonWS_joinSpace hcur]
      simp [List.append_assoc]
    · simp [List.append_assoc]

theorem fsc_content (t : Chars) (N : Nat) :
    ((force_substring_chunks t N).map nonWS).flatten = nonWS t := by
  have hwords : ∀ w ∈ pysplit t, ∀ c ∈ w, isWS c = false :=
    fun w hw => (pysplit_words hw).2
  have hcontent := fsc_fold_content N (pysplit t) ([], [], 0) (by simp) hwords
  have hfincur : ∀ w ∈ ((pysplit t).foldl (fscStep N) ([], [], 0)).2.1,
      ∀ c ∈ w, isWS c = false :=
    foldl_inv (fscStep N) (fun st => ∀ w ∈ st.2.1, ∀ c ∈ w, isWS c = false)
      (fun x => ∀ c ∈ x, isWS c = false) (pysplit t) ([], [], 0) (by simp)
      (fun st x hP hQ => fscStep_cur_words N st x hP hQ) hwords
  simp only [force_substring_chunks]
  split
  · rename_i hemp
    rw [← pysplit_content t]
    rw [List.isEmpty_iff.mp hemp] at hcontent
    simpa using hcontent
  · rw [← pysplit_content t]
    simp only [List.map_append, List.map_cons, List.map_nil,
      List.flatten_append, List.flatten_cons, List.flatten_nil]
    rw [nonWS_joinSpace hfincur]
    simpa using hcontent

theorem blpStep_content (st : List Chars × Chars) (s : Chars) :
    ((st.1.map nonWS).flatten ++ (nonWS st.2 ++ nonWS s)).Sublist
      (((blpStep st s).1.map nonWS).flatten ++ nonWS (blpStep st s).2) := by
  have hc0 : nonWS (strip (st.2 ++ [] ++ s)) = nonWS st.2 ++ nonWS s := by
    rw [nonWS_strip, nonWS_append, nonWS_append]
    simp [nonWS_nil]
  have hc1 : nonWS (strip (st.2 ++ [' '] ++ s)) = nonWS st.2 ++ nonWS s := by
    rw [nonWS_strip, nonWS_append, nonWS_append,
      show nonWS [' '] = [] from rfl]
    simp
  simp only [blpStep]
  split
  · split
    · split
      · rename_i hemp hbig hov
        have h2 : st.2 = [] := List.isEmpty_iff.mp hemp
        dsimp only
        rw [h2, nonWS_nil, List.nil_append, nonWS_strip, nonWS_append]
        exact (List.Sublist.refl _).append (List.sublist_append_right _ _)
      · dsimp only
        rw [hc0]
    · dsimp only
      rw [hc0]
  · split
    · split
      · rename_i hemp hbig hov
        dsimp only
        simp only [List.map_append, List.flatten_append, List.map_cons,
          List.map_nil, List.flatten_cons, List.flatten_nil, List.append_nil]
        rw [nonWS_strip, nonWS_append, ← List.append_assoc]
        exact (List.Sublist.refl _).append (List.sublist_append_right _ _)
      · rename_i hemp hbig hov
        exact absurd ⟨by decide, by simp⟩ hov
    · dsimp only
      rw [hc1]

theorem blp_fold_content (sents : List Chars) :
    ∀ st : List Chars × Chars,
    ((st.1.map nonWS).flatten ++ (nonWS st.2 ++ ((sents.map nonWS)).flatten)).Sublist
      (((sents.foldl blpStep st).1.map nonWS).flatten
        ++ nonWS (sents.foldl blpStep st).2) := by
  induction sents with
  | nil =>
    intro st
    simp only [List.map_nil, List.flatten_nil, List.append_nil, List.foldl_nil]
    exact List.Sublist.refl _
  | cons x rest ih =>
    intro st
    rw [List.foldl_cons]
    simp only [List.map_cons, List.flatten_cons]
    have h1 := (blpStep_content st x).append
      (List.Sublist.refl ((rest.map nonWS).flatten))
    have h2 := ih (blpStep st x)
    rw [← List.append_assoc] at h2
    have h3 := h1.trans h2
    simp only [List.append_assoc] at h3 ⊢
    exact h3

theorem blp_content (para : Chars) :
    (nonWS para).Sublist (((break_large_paragraph para).map nonWS).flatten) := by
  have hsents : ((((sentSplitAux para [] false).map strip).filter
      (fun s => ¬s.isEmpty)).map nonWS).flatten = nonWS para := by
    rw [content_filter_strip, sentSplitAux_content para [] false]
    simp [nonWS_nil]
  have h := blp_fold_content (((sentSplitAux para [] false).map strip).filter
    (fun s => ¬s.isEmpty)) ([], [])
  simp only [List.map_nil, List.flatten_nil, List.nil_append, nonWS_nil,
    hsents] at h
  simp only [break_large_paragraph]
  split
  · rename_i hemp
    have h2 : ((((sentSplitAux para [] false).map strip).filter
        (fun s => ¬s.isEmpty)).foldl blpStep ([], [])).2 = [] :=
      List.isEmpty_iff.mp hemp
    rw [h2, nonWS_nil, List.append_nil] at h
    exact h
  · simp only [List.map_append, List.flatten_append, List.map_cons,
      List.map_nil, List.flatten_cons, List.flatten_nil, List.append_nil]
    exact h

theorem sc_handler_content (chunks : List Chars) : ∀ acc : List Chars,
    (((chunks.foldl (fun acc sc => if count_tokens sc ≤ MAX_TOKENS then acc ++ [sc]
        else acc ++ force_substring_chunks sc MAX_TOKENS) acc)).map nonWS).flatten
      = (acc.map nonWS).flatten ++ ((chunks.map nonWS)).flatten := by
  induction chunks with
  | nil =>
    intro acc
    simp
  | cons sc rest ih =>
    intro acc
    rw [List.foldl_cons]
    simp only [List.map_cons, List.flatten_cons]
    split
    · rw [ih (acc ++ [sc])]
      simp [List.append_assoc]
    · rw [ih (acc ++ force_substring_chunks sc MAX_TOKENS)]
      simp only [List.map_append, List.flatten_append]
      rw [fsc_content]
      simp [List.append_assoc]

theorem scStep_content (st : List Chars × Chars) (para : Chars) :
    ((st.1.map nonWS).flatten ++ (nonWS st.2 ++ nonWS para)).Sublist
      (((scStep st para).1.map nonWS).flatten ++ nonWS (scStep st para).2) := by
  simp only [scStep]
  split
  · split
    · rename_i hbig hemp
      have h2 : st.2 = [] := List.isEmpty_iff.mp hemp
      dsimp only
      rw [sc_handler_content, h2, nonWS_nil, List.nil_append, List.append_nil]
      exact (List.Sublist.refl _).append (blp_content para)
    · dsimp only
      rw [sc_handler_content, nonWS_nil, List.append_nil]
      simp only [List.map_append, List.flatten_append, List.map_cons,
        List.map_nil, List.flatten_cons, List.flatten_nil, List.append_nil,
        nonWS_strip, List.append_assoc]
      exact (List.Sublist.refl _).append
        ((List.Sublist.refl _).append (blp_content para))
  · split
    · dsimp only
      rw [nonWS_append, show nonWS ['\n', '\n'] = [] from rfl, List.append_nil]
      split
      · rename_i hemp
        rw [List.isEmpty_iff.mp hemp, nonWS_nil, List.nil_append]
      · simp only [List.map_append, List.flatten_append, List.map_cons,
          List.map_nil, List.flatten_cons, List.flatten_nil, List.append_nil,
          nonWS_strip, List.append_assoc]
        exact List.Sublist.refl _
    · dsimp only
      rw [nonWS_append, nonWS_append, show nonWS ['\n', '\n'] = [] from rfl,
        List.append_nil]

theorem sc_fold_content (paras : List Chars) :
    ∀ st : List Chars × Chars,
    ((st.1.map nonWS).flatten ++ (nonWS st.2 ++ ((paras.map nonWS)).flatten)).Sublist
      (((paras.foldl scStep st).1.map nonWS).flatten
        ++ nonWS (paras.foldl scStep st).2) := by
  induction paras with
  | nil =>
    intro st
    simp only [List.map_nil, List.flatten_nil, List.append_nil, List.foldl_nil]
    exact List.Sublist.refl _
  | cons x rest ih =>
    intro st
    rw [List.foldl_cons]
    simp only [List.map_cons, List.flatten_cons]
    have h1 := (scStep_content st x).append
      (List.Sublist.refl ((rest.map nonWS).flatten))
    have h2 := ih (scStep st x)
    rw [← List.append_assoc] at h2
    have h3 := h1.trans h2
    simp only [List.append_assoc] at h3 ⊢
    exact h3

theorem nonWS_flatten (L : List Chars) :
    nonWS L.flatten = (L.map nonWS).flatten := by
  induction L with
  | nil => rfl
  | cons x rest ih =>
    simp only [List.flatten_cons, List.map_cons, nonWS_append, ih]

/-- Claim C5: the non-whitespace characters of the chapter text form a
subsequence (in order) of the non-whitespace characters of the
concatenation of the segments returned by `segment_chapter`: every
sentence of the input is reproduced at least once and in the original
order, up to whitespace and separator changes and up to the deliberate
duplication of overlap words, which only insert extra content between the
preserved characters. -/
theorem C5_thm (T : Chars) :
    (nonWS T).Sublist (nonWS (segment_chapter T).flatten) := by
  rw [nonWS_flatten]
  by_cases h : count_tokens T ≤ MAX_TOKENS
  · unfold segment_chapter
    rw [if_pos h]
    simp only [List.map_cons, List.map_nil, List.flatten_cons,
      List.flatten_nil, List.append_nil]
    exact List.Sublist.refl _
  · rw [segment_chapter_big h]
    have hparas : ((((splitNN T).map strip).filter
        (fun p => ¬p.isEmpty)).map nonWS).flatten = nonWS T := by
      rw [content_filter_strip, splitNN_content]
    have hfold := sc_fold_content (((splitNN T).map strip).filter
      (fun p => ¬p.isEmpty)) ([], [])
    simp only [List.map_nil, List.flatten_nil, List.nil_append, nonWS_nil,
      hparas] at hfold
    split
    · rename_i hemp
      have h2 : ((((splitNN T).map strip).filter
          (fun p => ¬p.isEmpty)).foldl scStep ([], [])).2 = [] :=
        List.isEmpty_iff.mp hemp
      rw [h2, nonWS_nil, List.append_nil] at hfold
      exact hfold
    · simp only [List.map_append, List.flatten_append, List.map_cons,
        List.map_nil, List.flatten_cons, List.flatten_nil, List.append_nil,
        nonWS_strip]
      exact hfold

/-- Witness for C5 at a small two-paragraph chapter. -/
theorem C5_witness :
    (nonWS ['a', 'b', ' ', 'c']).Sublist
      (nonWS (segment_chapter ['a', 'b', ' ', 'c']).flatten) :=
  C5_thm ['a', 'b', ' ', 'c']

/-! ## The chapter-heading regex scanner: matching lemmas -/

theorem patMatch_ne_nil {w : Chars} (h : patMatch w) : w ≠ [] := by
  obtain ⟨mid, hw, _, _⟩ := h
  subst hw
  simp

theorem patMatch_imp_B {w : Chars} (h : patMatch w) : patMatchB w = true := by
  obtain ⟨mid, hw, hne, hall⟩ := h
  subst hw
  have hstep : patMatchB ('第' :: mid ++ ['回'])
      = ('第' == '第' && ((mid ++ ['回']).getLast? == some '回') &&
          !(mid ++ ['回']).dropLast.isEmpty &&
          (mid ++ ['回']).dropLast.all isClass) := rfl
  rw [hstep, List.dropLast_concat, List.getLast?_concat]
  have hmid : mid.isEmpty = false := by
    cases mid with
    | nil => exact absurd rfl hne
    | cons _ _ => rfl
  simp [hmid, List.all_eq_true]
  exact hall

theorem lastHuiAux_some_ne_none (l : Chars) (j i : Nat) :
    lastHuiAux l j (some i) ≠ none := by
  induction l generalizing j i with
  | nil => simp [lastHuiAux]
  | cons c rest ih =>
    simp only [lastHuiAux]
    split
    · exact ih _ _
    · exact ih _ _

theorem lastHuiAux_none_no_hui {l : Chars} {j : Nat}
    (h : lastHuiAux l j none = none) :
    ∀ p q, l = p ++ '回' :: q → j + p.length = 0 := by
  induction l generalizing j with
  | nil =>
    intro p q hpq
    exact absurd hpq (by simp)
  | cons c rest ih =>
    intro p q hpq
    simp only [lastHuiAux] at h
    by_cases hc : (c == '回') = true ∧ j ≥ 1
    · rw [if_pos hc] at h
      exact absurd h (lastHuiAux_some_ne_none _ _ _)
    · rw [if_neg hc] at h
      cases p with
      | nil =>
        injection hpq with h1 h2
        have hj : ¬ j ≥ 1 := fun hj => hc ⟨by rw [h1]; rfl, hj⟩
        simp only [List.length_nil]
        omega
      | cons d p2 =>
        injection hpq with h1 h2
        have := ih h p2 q h2
        omega

theorem lastHuiAux_some_spec {l : Chars} {j : Nat} {best : Option Nat} {i : Nat}
    (h : lastHuiAux l j best = some i) :
    best = some i ∨ ∃ p q, l = p ++ '回' :: q ∧ j + p.length = i ∧ 1 ≤ i := by
  induction l generalizing j best with
  | nil => exact Or.inl h
  | cons c rest ih =>
    simp only [lastHuiAux] at h
    rcases ih h with hbest | ⟨p, q, hl, hlen, hi⟩
    · by_cases hc : (c == '回') = true ∧ j ≥ 1
      · rw [if_pos hc] at hbest
        injection hbest with hji
        right
        refine ⟨[], rest, ?_, ?_, ?_⟩
        · have hce : c = '回' := by
            have := hc.1
            exact beq_iff_eq.mp this
          rw [hce]
          rfl
        · simpa using hji
        · omega
      · rw [if_neg hc] at hbest
        exact Or.inl hbest
    · right
      refine ⟨c :: p, q, ?_, ?_, hi⟩
      · rw [hl]
        rfl
      · simp only [List.length_cons]
        omega

theorem takeWhile_all_append {p : Char → Bool} {a : Chars}
    (ha : ∀ c ∈ a, p c = true) (b : Chars) :
    (a ++ b).takeWhile p = a ++ b.takeWhile p := by
  induction a with
  | nil => rfl
  | cons c a2 ih =>
    rw [List.cons_append, List.takeWhile_cons, if_pos (ha c (by simp)),
      ih (fun d hd => ha d (by simp [hd])), List.cons_append]

theorem take_len_succ_append (p : Chars) (x : Char) (q : Chars) :
    (p ++ x :: q).take (p.length + 1) = p ++ [x] := by
  induction p with
  | nil => rfl
  | cons c p2 ih =>
    simp only [List.cons_append, List.length_cons, List.take_succ_cons]
    rw [ih]

theorem tryMatch_sound {s : Chars} {m : Chars × Chars}
    (h : tryMatch s = some m) : patMatch m.1 ∧ s = m.1 ++ m.2 := by
  cases s with
  | nil => simp [tryMatch] at h
  | cons c rest =>
    simp only [tryMatch] at h
    split at h
    · rename_i hc
      split at h
      · rename_i i hi
        injection h with hm
        subst hm
        rcases lastHuiAux_some_spec hi with hb | ⟨p, q, hl, hlen, hone⟩
        · exact absurd hb (by simp)
        · have hplen : p.length = i := by simpa using hlen
          have htake : (rest.takeWhile isClass).take (i + 1) = p ++ ['回'] := by
            rw [hl, ← hplen, take_len_succ_append]
          constructor
          · refine ⟨p, ?_, ?_, ?_⟩
            · show '第' :: (List.takeWhile isClass rest).take (i + 1) = '第' :: p ++ ['回']
              rw [htake]
              rfl
            · intro hp
              subst hp
              simp at hplen
              omega
            · intro d hd
              have hdm : d ∈ rest.takeWhile isClass := by
                rw [hl]
                exact List.mem_append_left _ hd
              exact List.mem_takeWhile_imp hdm
          · have hlen2 : i + 1 ≤ (rest.takeWhile isClass).length := by
              rw [hl]
              simp only [List.length_append, List.length_cons]
              omega
            have h1 : (rest.takeWhile isClass).take (i + 1)
                = rest.take (i + 1) := by
              conv_rhs => rw [← List.takeWhile_append_dropWhile isClass rest]
              rw [List.take_append_of_le_length hlen2]
            show c :: rest = ('第' :: (rest.takeWhile isClass).take (i + 1)) ++ rest.drop (i + 1)
            rw [hc, List.cons_append, h1, List.take_append_drop]
      · simp at h
    · simp at h

theorem tryMatch_complete {w : Chars} (t : Chars) (hw : patMatch w) :
    tryMatch (w ++ t) ≠ none := by
  obtain ⟨mid, hweq, hne, hall⟩ := hw
  subst hweq
  intro hnone
  rw [List.cons_append, List.cons_append, List.append_assoc,
    List.singleton_append] at hnone
  simp only [tryMatch] at hnone
  rw [if_pos trivial] at hnone
  have hrun : (mid ++ '回' :: t).takeWhile isClass
      = mid ++ '回' :: t.takeWhile isClass := by
    have h1 : ∀ c ∈ mid ++ ['回'], isClass c = true := by
      intro c hc
      rcases List.mem_append.mp hc with hcm | hcm
      · exact hall c hcm
      · simp at hcm
        subst hcm
        decide
    have h2 := takeWhile_all_append h1 t
    rw [List.append_assoc, List.singleton_append] at h2
    rw [h2, List.append_assoc, List.singleton_append]
  rw [hrun] at hnone
  cases hlh : lastHuiAux (mid ++ '回' :: t.takeWhile isClass) 0 none with
  | some i =>
    rw [hlh] at hnone
    simp at hnone
  | none =>
    have hz := lastHuiAux_none_no_hui hlh mid (t.takeWhile isClass) rfl
    have hmid : mid = [] := by
      apply List.eq_nil_of_length_eq_zero
      omega
    exact hne hmid

theorem scanChapters_nil (acc : Chars) : scanChapters [] acc = [acc.reverse] := by
  rw [scanChapters]

theorem scanChapters_cons_none {c : Char} {rest : Chars} (acc : Chars)
    (h : tryMatch (c :: rest) = none) :
    scanChapters (c :: rest) acc = scanChapters rest (c :: acc) := by
  rw [scanChapters]
  split
  · rename_i m heq
    rw [h] at heq
    cases heq
  · rfl

theorem scanChapters_match {s : Chars} (acc : Chars) {m : Chars × Chars}
    (h : tryMatch s = some m) :
    scanChapters s acc = acc.reverse :: m.1 :: scanChapters m.2 [] := by
  cases s with
  | nil => simp [tryMatch] at h
  | cons c rest =>
    rw [scanChapters]
    split
    · rename_i m2 heq
      rw [h] at heq
      injection heq with heq
      subst heq
      rfl
    · rename_i heq
      rw [h] at heq
      cases heq

theorem scanChapters_skip : ∀ (a s acc : Chars),
    (∀ a1 a2, a = a1 ++ a2 → a2 ≠ [] → tryMatch (a2 ++ s) = none) →
    scanChapters (a ++ s) acc = scanChapters s (a.reverse ++ acc) := by
  intro a
  induction a with
  | nil =>
    intro s acc _
    simp
  | cons c a2 ih =>
    intro s acc h
    have hc : tryMatch (c :: (a2 ++ s)) = none := by
      have := h [] (c :: a2) rfl (by simp)
      rwa [List.cons_append] at this
    rw [List.cons_append, scanChapters_cons_none acc hc,
      ih s (c :: acc) (fun a1 a3 he hne => h (c :: a1) a3 (by rw [he]; rfl) hne)]
    congr 1
    rw [List.reverse_cons, List.append_assoc, List.singleton_append]

theorem scan_two (A h1 B h2 C : Chars)
    (hp1 : patMatch h1) (hp2 : patMatch h2) (hBne : B ≠ [])
    (H : ∀ X w Y, A ++ (h1 ++ (B ++ (h2 ++ C))) = X ++ (w ++ Y) → patMatch w →
          (X = A ∧ w = h1) ∨ (X = (A ++ h1) ++ B ∧ w = h2)) :
    scanChapters (A ++ (h1 ++ (B ++ (h2 ++ C)))) [] = [A, h1, B, h2, C] := by
  have hh1len : 1 ≤ h1.length := List.length_pos.mpr (patMatch_ne_nil hp1)
  have hh2len : 1 ≤ h2.length := List.length_pos.mpr (patMatch_ne_nil hp2)
  have hnA : ∀ a1 a2, A = a1 ++ a2 → a2 ≠ [] →
      tryMatch (a2 ++ (h1 ++ (B ++ (h2 ++ C)))) = none := by
    intro a1 a2 he hne
    cases htm : tryMatch (a2 ++ (h1 ++ (B ++ (h2 ++ C)))) with
    | none => rfl
    | some m =>
      exfalso
      obtain ⟨hpm, heq⟩ := tryMatch_sound htm
      have hdoc : A ++ (h1 ++ (B ++ (h2 ++ C))) = a1 ++ (m.1 ++ m.2) := by
        rw [he, ← heq]
        simp [List.append_assoc]
      rcases H a1 m.1 m.2 hdoc hpm with ⟨hX, _⟩ | ⟨hX, _⟩
      · rw [hX] at he
        exact hne (List.self_eq_append_right.mp he)
      · have l1 := congrArg List.length he
        have l2 := congrArg List.length hX
        simp only [List.length_append] at l1 l2
        omega
  have hm1 : ∃ m, tryMatch (h1 ++ (B ++ (h2 ++ C))) = some m := by
    cases htm : tryMatch (h1 ++ (B ++ (h2 ++ C))) with
    | none => exact absurd htm (tryMatch_complete _ hp1)
    | some m => exact ⟨m, rfl⟩
  obtain ⟨m1, hm1⟩ := hm1
  obtain ⟨hpm1, heq1⟩ := tryMatch_sound hm1
  have hm1eq : m1.1 = h1 ∧ m1.2 = B ++ (h2 ++ C) := by
    have hdoc : A ++ (h1 ++ (B ++ (h2 ++ C))) = A ++ (m1.1 ++ m1.2) := by
      rw [← heq1]
    rcases H A m1.1 m1.2 hdoc hpm1 with ⟨_, hw⟩ | ⟨hX, _⟩
    · refine ⟨hw, ?_⟩
      rw [hw] at heq1
      exact (List.append_cancel_left heq1).symm
    · exfalso
      have l2 := congrArg List.length hX
      simp only [List.length_append] at l2
      omega
  have hnB : ∀ b1 b2, B = b1 ++ b2 → b2 ≠ [] →
      tryMatch (b2 ++ (h2 ++ C)) = none := by
    intro b1 b2 he hne
    cases htm : tryMatch (b2 ++ (h2 ++ C)) with
    | none => rfl
    | some m =>
      exfalso
      obtain ⟨hpm, heq⟩ := tryMatch_sound htm
      have hdoc : A ++ (h1 ++ (B ++ (h2 ++ C)))
          = ((A ++ h1) ++ b1) ++ (m.1 ++ m.2) := by
        rw [he, ← heq]
        simp [List.append_assoc]
      rcases H _ m.1 m.2 hdoc hpm with ⟨hX, _⟩ | ⟨hX, _⟩
      · have l2 := congrArg List.length hX
        simp only [List.length_append] at l2
        omega
      · have hb1 : b1 = B := List.append_cancel_left hX
        rw [hb1] at he
        exact hne (List.self_eq_append_right.mp he)
  have hm2 : ∃ m, tryMatch (h2 ++ C) = some m := by
    cases htm : tryMatch (h2 ++ C) with
    | none => exact absurd htm (tryMatch_complete _ hp2)
    | some m => exact ⟨m, rfl⟩
  obtain ⟨m2, hm2⟩ := hm2
  obtain ⟨hpm2, heq2⟩ := tryMatch_sound hm2
  have hm2eq : m2.1 = h2 ∧ m2.2 = C := by
    have hdoc : A ++ (h1 ++ (B ++ (h2 ++ C)))
        = ((A ++ h1) ++ B) ++ (m2.1 ++ m2.2) := by
      rw [← heq2]
      simp [List.append_assoc]
    rcases H _ m2.1 m2.2 hdoc hpm2 with ⟨hX, _⟩ | ⟨_, hw⟩
    · exfalso
      have l2 := congrArg List.length hX
      simp only [List.length_append] at l2
      omega
    · refine ⟨hw, ?_⟩
      rw [hw] at heq2
      exact (List.append_cancel_left heq2).symm
  have hnC : ∀ c1 c2, C = c1 ++ c2 → c2 ≠ [] →
      tryMatch (c2 ++ ([] : Chars)) = none := by
    intro c1 c2 he hne
    cases htm : tryMatch (c2 ++ ([] : Chars)) with
    | none => rfl
    | some m =>
      exfalso
      obtain ⟨hpm, heq⟩ := tryMatch_sound htm
      rw [List.append_nil] at heq
      have hdoc : A ++ (h1 ++ (B ++ (h2 ++ C)))
          = ((((A ++ h1) ++ B) ++ h2) ++ c1) ++ (m.1 ++ m.2) := by
        rw [he, ← heq]
        simp [List.append_assoc]
      rcases H _ m.1 m.2 hdoc hpm with ⟨hX, _⟩ | ⟨hX, _⟩ <;>
      · have l2 := congrArg List.length hX
        simp only [List.length_append] at l2
        omega
  rw [scanChapters_skip A _ [] hnA, scanChapters_match _ hm1, hm1eq.1, hm1eq.2,
    scanChapters_skip B _ [] hnB, scanChapters_match _ hm2, hm2eq.1, hm2eq.2]
  have hC : scanChapters C [] = scanChapters (C ++ []) [] := by
    rw [List.append_nil]
  rw [hC, scanChapters_skip C [] [] hnC, scanChapters_nil]
  simp

theorem patMatch_head_last {w : Chars} (h : patMatch w) :
    w ≠ [] ∧ (∀ c, w.head? = some c → isWS c = false) ∧
      (∀ c, w.getLast? = some c → isWS c = false) := by
  obtain ⟨mid, hw, hne, hall⟩ := h
  subst hw
  refine ⟨by simp, ?_, ?_⟩
  · intro c hc
    rw [List.cons_append, List.head?_cons] at hc
    injection hc with hc
    subst hc
    decide
  · intro c hc
    rw [List.getLast?_concat] at hc
    injection hc with hc
    subst hc
    decide

theorem strip_keep_head {a : Chars} (b : Chars) (hane : a ≠ [])
    (hh : ∀ c, a.head? = some c → isWS c = false)
    (hl : ∀ c, a.getLast? = some c → isWS c = false) :
    ∃ b2, strip (a ++ b) = a ++ b2 := by
  unfold strip
  have h1 : (a ++ b).dropWhile isWS = a ++ b := by
    apply dropWhile_eq_self_of_head
    intro c hc
    cases a with
    | nil => exact absurd rfl hane
    | cons x a2 =>
      rw [List.cons_append, List.head?_cons] at hc
      injection hc with hc
      subst hc
      exact hh x rfl
  rw [h1, List.reverse_append, List.dropWhile_append]
  by_cases hb : (b.reverse.dropWhile isWS).isEmpty
  · rw [if_pos hb]
    have h3 : a.reverse.dropWhile isWS = a.reverse := by
      apply dropWhile_eq_self_of_head
      intro c hc
      rw [List.head?_reverse] at hc
      exact hl c hc
    rw [h3, List.reverse_reverse]
    exact ⟨[], by rw [List.append_nil]⟩
  · rw [if_neg hb]
    exact ⟨(b.reverse.dropWhile isWS).reverse, by
      rw [List.reverse_append, List.reverse_reverse]⟩

/-- **C9.**  For every document containing exactly two substrings matching
the chapter-heading pattern (`第` + CJK characters or digits + `回`),
separated by non-empty body text, `split_text_into_chapters` returns
exactly two chapters, in document order, each chapter starting with its
heading text. -/
theorem C9_thm (A h1 B h2 C : Chars)
    (hp1 : patMatch h1) (hp2 : patMatch h2) (hBne : B ≠ [])
    (H : ∀ X w Y, A ++ (h1 ++ (B ++ (h2 ++ C))) = X ++ (w ++ Y) → patMatch w →
          (X = A ∧ w = h1) ∨ (X = (A ++ h1) ++ B ∧ w = h2)) :
    ∃ r1 r2, split_text_into_chapters (A ++ (h1 ++ (B ++ (h2 ++ C))))
        = [h1 ++ r1, h2 ++ r2] := by
  obtain ⟨hne1, hh1, hl1⟩ := patMatch_head_last hp1
  obtain ⟨hne2, hh2, hl2⟩ := patMatch_head_last hp2
  obtain ⟨r1, hr1⟩ := strip_keep_head B hne1 hh1 hl1
  obtain ⟨r2, hr2⟩ := strip_keep_head C hne2 hh2 hl2
  refine ⟨r1, r2, ?_⟩
  unfold split_text_into_chapters
  rw [scan_two A h1 B h2 C hp1 hp2 hBne H]
  have hstep : chapAux [A, h1, B, h2, C]
      = (if (strip (h1 ++ B)).isEmpty then [] else [strip (h1 ++ B)]) ++
        ((if (strip (h2 ++ C)).isEmpty then [] else [strip (h2 ++ C)]) ++ []) := by
    rfl
  rw [hstep, hr1, hr2]
  have he1 : (h1 ++ r1).isEmpty = false := by
    cases h1 with
    | nil => exact absurd rfl hne1
    | cons x l => rfl
  have he2 : (h2 ++ r2).isEmpty = false := by
    cases h2 with
    | nil => exact absurd rfl hne2
    | cons x l => rfl
  rw [if_neg (by simp [he1]), if_neg (by simp [he2])]
  rfl

theorem two_matches_of_bounded (A h1 B h2 C : Chars)
    (Hb : ∀ n, n < (A ++ (h1 ++ (B ++ (h2 ++ C)))).length + 1 →
        ∀ len, len < (A ++ (h1 ++ (B ++ (h2 ++ C)))).length + 1 →
        patMatchB (((A ++ (h1 ++ (B ++ (h2 ++ C)))).drop n).take len) = true →
        (n = A.length ∧ len = h1.length) ∨
        (n = A.length + h1.length + B.length ∧ len = h2.length)) :
    ∀ X w Y, A ++ (h1 ++ (B ++ (h2 ++ C))) = X ++ (w ++ Y) → patMatch w →
      (X = A ∧ w = h1) ∨ (X = (A ++ h1) ++ B ∧ w = h2) := by
  intro X w Y hdoc hw
  have hlen := congrArg List.length hdoc
  simp only [List.length_append] at hlen
  have hXw : ((A ++ (h1 ++ (B ++ (h2 ++ C)))).drop X.length).take w.length = w := by
    rw [hdoc, List.drop_left, List.take_left]
  have hb := Hb X.length (by simp only [List.length_append]; omega)
    w.length (by simp only [List.length_append]; omega)
    (by rw [hXw]; exact patMatch_imp_B hw)
  rcases hb with ⟨hn, hl⟩ | ⟨hn, hl⟩
  · left
    have hX : X = A := by
      have hA : (A ++ (h1 ++ (B ++ (h2 ++ C)))).take A.length = A :=
        List.take_left A _
      have hXt : (A ++ (h1 ++ (B ++ (h2 ++ C)))).take X.length = X := by
        rw [hdoc]
        exact List.take_left X _
      rw [hn, hA] at hXt
      exact hXt.symm
    refine ⟨hX, ?_⟩
    have hw1 : ((A ++ (h1 ++ (B ++ (h2 ++ C)))).drop A.length).take h1.length
        = h1 := by
      rw [List.drop_left]
      exact List.take_left h1 _
    rw [hn, hl] at hXw
    exact hXw.symm.trans hw1
  · right
    have hshape : A ++ (h1 ++ (B ++ (h2 ++ C))) = ((A ++ h1) ++ B) ++ (h2 ++ C) := by
      simp [List.append_assoc]
    have hplen : ((A ++ h1) ++ B).length = A.length + h1.length + B.length := by
      simp only [List.length_append]
    have hX : X = (A ++ h1) ++ B := by
      have hA : (A ++ (h1 ++ (B ++ (h2 ++ C)))).take ((A ++ h1) ++ B).length
          = (A ++ h1) ++ B := by
        rw [hshape]
        exact List.take_left _ _
      have hXt : (A ++ (h1 ++ (B ++ (h2 ++ C)))).take X.length = X := by
        rw [hdoc]
        exact List.take_left X _
      rw [hn, ← hplen, hA] at hXt
      exact hXt.symm
    refine ⟨hX, ?_⟩
    have hw2 : ((A ++ (h1 ++ (B ++ (h2 ++ C)))).drop ((A ++ h1) ++ B).length).take
        h2.length = h2 := by
      rw [hshape, List.drop_left]
      exact List.take_left h2 _
    rw [hplen] at hw2
    rw [hn, hl] at hXw
    exact hXw.symm.trans hw2

/-- Witness for C9: a nine-character document with preamble `x`, headings
`第一回` and `第二回`, body `b` and trailing content `c`. -/
theorem C9_witness :
    ∃ r1 r2, split_text_into_chapters
        (['x'] ++ (['第', '一', '回'] ++ (['b'] ++ (['第', '二', '回'] ++ ['c']))))
        = [['第', '一', '回'] ++ r1, ['第', '二', '回'] ++ r2] :=
  C9_thm ['x'] ['第', '一', '回'] ['b'] ['第', '二', '回'] ['c']
    ⟨['一'], rfl, by decide, by decide⟩
    ⟨['二'], rfl, by decide, by decide⟩
    (by decide)
    (two_matches_of_bounded ['x'] ['第', '一', '回'] ['b'] ['第', '二', '回'] ['c']
      (by decide))
